import Mathlib

/-!
Verification development for subpub's publish orchestrator.

The definitions below are a shallow embedding of `src/main.rs` and
`src/git.rs`.  External collaborators (manifest loading, registry access,
semver policy, the `cargo`/`git` binaries) are represented at their
interface boundary: package data is a plain record, fallible collaborator
calls are parameters returning `Except`, and the git history is an explicit
state (a commit is a message together with the tree it snapshots; `git
status` is a comparison of the working tree against the head commit's tree,
`git commit` pushes a commit, `git reset --hard HEAD~1` pops one).
-/

namespace Subpub

/-- A crate's details as consumed by `main.rs`: the fields read by the
orchestrator from the `crate_details` collaborator.  `deps_to_publish` is
the list of in-workspace dependency names destined for publication. -/
structure CrateDetails where
  version : String
  should_be_published : Bool
  toml_path : String
  deps_to_publish : List String
deriving DecidableEq, Repr

/-- `Crates.details`: a map from crate name to details.  Modelled as an
association list; the list order stands in for the map's (unspecified)
iteration order. -/
abbrev Workspace := List (String × CrateDetails)

def wsKeys (ws : Workspace) : List String := ws.map Prod.fst

/-- `crates.details.get(krate)` (first matching key). -/
def lookupDetails (ws : Workspace) (k : String) : Option CrateDetails :=
  (ws.find? (fun e => e.1 = k)).map Prod.snd

/-- The dependency list of a crate, empty when the crate is unknown. -/
def depsOf (ws : Workspace) (k : String) : List String :=
  ((lookupDetails ws k).map CrateDetails.deps_to_publish).getD []

/-! ## Publish Order Resolver (`publish`, src/main.rs lines 136-203) -/

/-- `OrderedCrate` from `publish`. -/
structure OrderedCrate where
  name : String
  rank : Nat
deriving DecidableEq, Repr

def poNames (po : List OrderedCrate) : List String := po.map OrderedCrate.name

/-- Body of the `for (krate, details) in &crates.details` loop: skip crates
already ordered; order a crate once every distinct entry of
`deps_to_publish` is ordered, with rank `fold(1, acc + dep.rank)` over the
ordered dependency entries.  The `HashSet` of dependencies is modelled by
`dedup` (its cardinality and membership are all the code uses). -/
def passStep (po : List OrderedCrate) (entry : String × CrateDetails) : List OrderedCrate :=
  if po.any (fun ord_crate => ord_crate.name = entry.1) then po
  else
    let deps := entry.2.deps_to_publish.dedup
    let ordered_deps := po.filter (fun ord_crate => deps.any (fun dep => dep = ord_crate.name))
    if ordered_deps.length = deps.length then
      po ++ [⟨entry.1, ordered_deps.foldl (fun acc ord_crate => acc + ord_crate.rank) 1⟩]
    else po

/-- One full scan over the crate map (one iteration of the `loop`). -/
def orderPass (ws : Workspace) (po : List OrderedCrate) : List OrderedCrate :=
  ws.foldl passStep po

/-- The `loop { ... if !progressed { break } }` fixed-point iteration.
A pass only appends, so `progressed` is equivalent to the length growing.
The fuel argument bounds the number of passes; `ws.length + 1` passes
always reach the fixed point (each progressing pass orders at least one
new crate). -/
def orderLoop (ws : Workspace) : Nat → List OrderedCrate → List OrderedCrate
  | 0, po => po
  | fuel + 1, po =>
    let po2 := orderPass ws po
    if po2.length = po.length then po
    else orderLoop ws fuel po2

def orderFix (ws : Workspace) : List OrderedCrate := orderLoop ws (ws.length + 1) []

/-- Lexicographic strict comparison of character lists: the order
`Ord::cmp` gives Rust strings, at the code-point level. -/
def charsLt : List Char → List Char → Bool
  | [], [] => false
  | [], _ :: _ => true
  | _ :: _, [] => false
  | a :: as, b :: bs => if a < b then true else if b < a then false else charsLt as bs

/-- `a.name.cmp(&b.name) != Greater`: the name comparison used by the
sort's tie-break. -/
def nameLe (a b : String) : Bool := !(charsLt b.data a.data)

/-- The comparator of `publish_order.sort_by`: rank ascending, then name
ascending. -/
def ordLe (a b : OrderedCrate) : Bool :=
  a.rank < b.rank || (a.rank = b.rank && nameLe a.name b.name)

/-- The final `publish_order: Vec<String>`. -/
def publish_order (ws : Workspace) : List String :=
  ((orderFix ws).mergeSort ordLe).map OrderedCrate.name

/-- `unordered_crates` (src/main.rs lines 189-193): keys that the resolver
could not place. -/
def unordered_crates (ws : Workspace) : List String :=
  (wsKeys ws).filter (fun krate => !((publish_order ws).any (fun oc => oc = krate)))

/-! Decidable well-formedness checks on the dependency graph.  The spec's
data model (§3) makes `deps_to_publish` refer to workspace packages only;
`depsClosedCheck` states that.  `acyclicCheck` is acyclicity in the form
"every nonempty set of crates contains one with no dependency inside the
set" (quantified over sublists of the key list, hence decidable). -/

def depsClosedCheck (ws : Workspace) : Bool :=
  ws.all (fun e => e.2.deps_to_publish.all (fun dep => (wsKeys ws).any (fun k => k = dep)))

def acyclicCheck (ws : Workspace) : Bool :=
  (wsKeys ws).sublists.all (fun S =>
    S.isEmpty || S.any (fun m => (depsOf ws m).all (fun dep => !(S.any (fun x => x = dep)))))

/-! ## Selection Scope Resolver -/

/-- The body of the exclusion closure's inner `for krate in &publish_order`
loop (src/main.rs lines 217-232): look the crate up (an unknown crate is a
fatal error), and insert it into the exclude set when one of its
dependencies is the currently considered excluded crate.  The `HashSet`
membership insert is modelled by an append guarded on membership. -/
def excl_insert (ws : Workspace) (excluded_crate : String) (acc : List String)
    (krate : String) : Except String (List String) :=
  match lookupDetails ws krate with
  | none => Except.error ("Crate not found: " ++ krate)
  | some details =>
    if details.deps_to_publish.any (fun dep => dep = excluded_crate) then
      Except.ok (if acc.any (fun x => x = krate) then acc else acc ++ [krate])
    else Except.ok acc

/-- One outer iteration of the exclusion-closure `loop` (src/main.rs lines
208-238): for each crate in the snapshot of the current exclude set, scan
`publish_order` and insert every crate depending on it. -/
def excl_pass (ws : Workspace) (po : List String) (snap acc : List String) :
    Except String (List String) :=
  snap.foldlM (fun acc2 excluded_crate =>
    po.foldlM (excl_insert ws excluded_crate) acc2) acc

/-- The exclusion-closure fixed-point loop; as in `orderLoop`, `progressed`
is equivalent to the set growing, and `po.length + 1` outer iterations
always reach the fixed point. -/
def excl_loop (ws : Workspace) (po : List String) :
    Nat → List String → Except String (List String)
  | 0, acc => Except.ok acc
  | fuel + 1, acc => do
    let acc2 ← excl_pass ws po acc acc
    if acc2.length = acc.length then Except.ok acc2
    else excl_loop ws po fuel acc2

/-- `crates_to_exclude` (src/main.rs lines 205-241).  The initial
`HashSet::from_iter(opts.exclude)` is modelled by `dedup`. -/
def crates_to_exclude (ws : Workspace) (po : List String) (exclude : List String) :
    Except String (List String) :=
  excl_loop ws po (po.length + 1) exclude.dedup

/-- The `opts.crates.is_empty()` branch of `input_crates` (src/main.rs
lines 243-272): walk `publish_order`; a crate equal to `start_from` is
kept before the exclusion and publishable checks; excluded crates are
dropped; unknown crates are an error; non-publishable crates are dropped. -/
def input_step (ws : Workspace) (excl : List String) (start_from : Option String)
    (acc : List String) (krate : String) : Except String (List String) :=
  if start_from = some krate then Except.ok (acc ++ [krate])
  else if excl.any (fun excluded_crate => excluded_crate = krate) then Except.ok acc
  else
    match lookupDetails ws krate with
    | some details =>
      Except.ok (if details.should_be_published then acc ++ [krate] else acc)
    | none => Except.error ("Crate not found: " ++ krate)

def input_crates_all (ws : Workspace) (po : List String) (excl : List String)
    (start_from : Option String) : Except String (List String) :=
  po.foldlM (input_step ws excl start_from) []

/-- One outer iteration of the `include_crates_dependents` closure
(src/main.rs lines 277-311). -/
def incl_pass (ws : Workspace) (po : List String) (excl : List String)
    (snap acc : List String) : Except String (List String) :=
  snap.foldlM (fun acc2 included_crate =>
    po.foldlM (fun acc3 krate =>
      if excl.any (fun excluded_crate => excluded_crate = krate) then Except.ok acc3
      else
        match lookupDetails ws krate with
        | none => Except.error ("Crate not found: " ++ krate)
        | some details =>
          if details.should_be_published
              && details.deps_to_publish.any (fun dep => dep = included_crate) then
            Except.ok (if acc3.any (fun x => x = krate) then acc3 else acc3 ++ [krate])
          else Except.ok acc3) acc2) acc

def incl_loop (ws : Workspace) (po : List String) (excl : List String) :
    Nat → List String → Except String (List String)
  | 0, acc => Except.ok acc
  | fuel + 1, acc => do
    let acc2 ← incl_pass ws po excl acc acc
    if acc2.length = acc.length then Except.ok acc2
    else incl_loop ws po excl fuel acc2

/-- The explicit-crate-list branch of `input_crates` (src/main.rs lines
273-318): the requested set, optionally closed under dependents, filtered
against `publish_order` for ordering. -/
def input_crates_selected (ws : Workspace) (po : List String) (excl : List String)
    (requested : List String) (include_dependents : Bool) : Except String (List String) := do
  let included ←
    if include_dependents then incl_loop ws po excl (po.length + 1) requested.dedup
    else Except.ok requested.dedup
  Except.ok (po.filter (fun ordered_crate => included.any (fun x => x = ordered_crate)))

/-- The `retain_mut` closure of start-from slicing (src/main.rs lines
320-338), with the captured `keep` flag threaded as state: reaching the
start-from crate sets `keep`, then drops the crate itself if it is in the
exclude set; all other crates are retained iff `keep` is set. -/
def sliceStep (start_from : String) (excl : List String)
    (st : List String × Bool) (krate : String) : List String × Bool :=
  if krate = start_from then
    if excl.any (fun excluded_crate => excluded_crate = krate) then (st.1, true)
    else (st.1 ++ [krate], true)
  else if st.2 then (st.1 ++ [krate], true) else (st.1, false)

/-- `selected_crates` (src/main.rs lines 320-338). -/
def selected_crates_fn (start_from : Option String) (excl : List String)
    (input : List String) : List String :=
  match start_from with
  | none => input
  | some sf => (input.foldl (sliceStep sf excl) ([], false)).1

/-! ## Dependency Validator (`validate_crates`, src/main.rs lines 352-415) -/

/-- Structured rendering of the validator's `bail!` messages: each error
names the offending crate, the immediate parent in the walk (`none` when
the crate is a direct dependency of the initial crate), and the initial
selected crate; the not-publishable error also names the manifest path. -/
inductive ValidationError where
  | excludedDep (krate : String) (parent : Option String) (initial : String)
  | shouldNotPublish (krate : String) (parent : Option String) (initial : String) (toml : String)
  | notFound (krate : String)
deriving DecidableEq, Repr

/-- `validate_crates`: depth-first walk over `deps_to_publish` carrying a
visited list; each dependency is visited with `visited ++ [krate]` (the
Rust code rebuilds this extension from the incoming slice for every
dependency, so siblings do not see each other's subtrees).  The fuel
argument bounds the recursion depth; every level pushes a distinct,
present crate onto `visited`, so a fuel exceeding the number of crates is
never exhausted at the call sites below. -/
def validate_crates (ws : Workspace) (excluded_crates : List String) :
    Nat → String → Option String → String → List String → Except ValidationError Unit
  | 0, _, _, _, _ => Except.ok ()
  | fuel + 1, initial_crate, parent_crate, krate, visited_crates =>
    if visited_crates.any (fun visited_crate => visited_crate = krate) then Except.ok ()
    else if excluded_crates.any (fun excluded_crate => excluded_crate = krate) then
      Except.error (ValidationError.excludedDep krate parent_crate initial_crate)
    else
      match lookupDetails ws krate with
      | none => Except.error (ValidationError.notFound krate)
      | some details =>
        if !details.should_be_published then
          Except.error
            (ValidationError.shouldNotPublish krate parent_crate initial_crate details.toml_path)
        else
          details.deps_to_publish.foldlM (fun _ dep =>
            validate_crates ws excluded_crates fuel initial_crate
              (if krate = initial_crate then none else some krate)
              dep (visited_crates ++ [krate])) ()

/-- The `for krate in &selected_crates` validation loop (src/main.rs lines
412-415). -/
def validateAll (ws : Workspace) (excluded_crates selected : List String) :
    Except ValidationError Unit :=
  selected.foldlM (fun _ krate =>
    validate_crates ws excluded_crates ((wsKeys ws).length + 2) krate none krate []) ()

/-! ## Checkpoint Transaction Manager (src/git.rs)

The git binary is external; its state is modelled explicitly.  A repository
always has at least one commit (the `initialCommit`); `commits` lists the
commits stacked on top of it, most recent first.  `git status --porcelain`
reports changes exactly when the working tree differs from the head
commit's tree; `git add . && git commit -m msg` pushes a commit whose tree
is the working tree; `git reset --hard HEAD~1` pops the head commit and
sets the working tree to the new head's tree (failing when the head has no
parent). -/

def CHECKPOINT_SAVE : String := "[subpub] CHECKPOINT_SAVE"

def CHECKPOINT_REVERT : String := "[subpub] CHECKPOINT_REVERT"

inductive GitCheckpoint where
  | Save
  | RevertLater
deriving DecidableEq, Repr

structure GCommit (α : Type) where
  msg : String
  tree : α
deriving DecidableEq, Repr

structure GitState (α : Type) where
  initialCommit : GCommit α
  commits : List (GCommit α)
  worktree : α
deriving DecidableEq, Repr

def GitState.headCommit {α : Type} (s : GitState α) : GCommit α :=
  s.commits.headD s.initialCommit

def GitState.isDirty {α : Type} [DecidableEq α] (s : GitState α) : Bool :=
  s.worktree ≠ s.headCommit.tree

def commitMsg (op : GitCheckpoint) : String :=
  match op with
  | GitCheckpoint.Save => CHECKPOINT_SAVE
  | GitCheckpoint.RevertLater => CHECKPOINT_REVERT

/-- `git_checkpoint` (src/git.rs lines 14-67): commit everything when the
status is non-empty, no-op when the tree is clean. -/
def git_checkpoint {α : Type} [DecidableEq α] (s : GitState α) (op : GitCheckpoint) :
    GitState α :=
  if s.isDirty then
    { s with commits := ⟨commitMsg op, s.worktree⟩ :: s.commits }
  else s

/-- `with_git_checkpoint` (src/git.rs lines 69-80).  The wrapped action is
its effect on the working tree. -/
def with_git_checkpoint {α : Type} [DecidableEq α] (s : GitState α) (op : GitCheckpoint)
    (func : α → α) : GitState α :=
  let s1 := if op = GitCheckpoint.Save then s else git_checkpoint s GitCheckpoint.Save
  let s2 := { s1 with worktree := func s1.worktree }
  git_checkpoint s2 op

/-- `git_checkpoint_revert` (src/git.rs lines 82-123): while the latest
commit's message is the RevertLater marker, hard-reset to its parent;
`git reset --hard HEAD~1` on the root commit fails. -/
def git_checkpoint_revert {α : Type} (s : GitState α) : Except String (GitState α) :=
  if s.headCommit.msg = CHECKPOINT_REVERT then
    match h : s.commits with
    | [] => Except.error "Failed to revert checkpoint commit"
    | _ :: rest =>
      git_checkpoint_revert
        { initialCommit := s.initialCommit, commits := rest
          worktree := (rest.headD s.initialCommit).tree }
  else Except.ok s
termination_by s.commits.length
decreasing_by simp [h]

/-- The state `git_checkpoint_revert` unwinds to: drop the contiguous
RevertLater-tagged suffix of history; when nothing is dropped the working
tree is untouched, otherwise it is reset to the new head's tree. -/
def unwound {α : Type} (s : GitState α) : GitState α :=
  let rest := s.commits.dropWhile (fun c => c.msg = CHECKPOINT_REVERT)
  if rest.length = s.commits.length then s
  else
    { initialCommit := s.initialCommit, commits := rest
      worktree := (rest.headD s.initialCommit).tree }

/-! ## Publish Pipeline (src/main.rs lines 417-568)

External collaborator calls are parameters bundled in `Ext`; each filesystem
or registry mutation performed by the pipeline is recorded as an `Event`.
A `checkpoint` event marks a `git_checkpoint` invocation (which commits
only when the tree is dirty). -/

structure Ext where
  whatNeedsPublishing : String → List String → Except String (List String)
  crateVersions : String → Except String (List String)
  needsPublishing : String → List String → Except String Bool
  maybeBumpVersion : String → List String → Except String String
  publishCrate : String → Option (List String) → Option Nat → Except String Unit
  writeDepVersion : String → String → String → Except String Unit
  setRegistry : String → String → Except String Unit
  cargoUpdate : List String → Except String Unit
  cargoCheck : String → Except String Unit

inductive Event where
  | checkpoint
  | wroteDep (target dep version : String)
  | bumped (krate version : String)
  | published (krate : String)
  | registrySet (krate : String)
  | ranCargoUpdate (crates : List String)
  | ranCargoCheck (krate : String)
deriving DecidableEq, Repr

/-- The pipeline's mutable run state: the crate map (whose versions are
bumped in place), the `processed_crates` set, and the mutation trace. -/
structure PState where
  crates : Workspace
  processed : List String
  events : List Event
deriving DecidableEq, Repr

/-- `HashSet::insert` on the processed set. -/
def insertStr (l : List String) (k : String) : List String :=
  if l.any (fun x => x = k) then l else l ++ [k]

/-- `details.maybe_bump_version` result applied to the crate map. -/
def updateVersion (ws : Workspace) (k v : String) : Workspace :=
  ws.map (fun e => if e.1 = k then (e.1, { e.2 with version := v }) else e)

/-- The body of the first `with_git_checkpoint(Save, ...)` closure
(src/main.rs lines 448-464): rewrite `sel`'s manifest to the current
version of every crate preceding it in `publish_order`. -/
def syncLoop (ext : Ext) (sel : String) : List String → PState → PState × Option String
  | [], st => (st, none)
  | krate :: rest, st =>
    if krate = sel then (st, none)
    else
      match lookupDetails st.crates krate with
      | none => (st, some ("Crate details not found for crate: " ++ krate))
      | some crate_details =>
        match ext.writeDepVersion sel krate crate_details.version with
        | Except.error e => (st, some e)
        | Except.ok _ =>
          syncLoop ext sel rest
            { st with events := st.events ++ [Event.wroteDep sel krate crate_details.version] }

/-- Step 1 of an iteration: dependency-version sync under a Save
checkpoint.  `with_git_checkpoint` runs the trailing `git_checkpoint(op)`
whether or not the closure failed, then surfaces the closure's error. -/
def syncDepVersions (ext : Ext) (po : List String) (st : PState) (sel : String) :
    PState × Option String :=
  match lookupDetails st.crates sel with
  | none =>
    ({ st with events := st.events ++ [Event.checkpoint] }, some ("Crate not found: " ++ sel))
  | some _ =>
    match syncLoop ext sel po st with
    | (st1, e) => ({ st1 with events := st1.events ++ [Event.checkpoint] }, e)

/-- Propagation of `last_version` into every crate's manifest under a Save
checkpoint (src/main.rs lines 532-537). -/
def propagateLoop (ext : Ext) (krate version : String) :
    List (String × CrateDetails) → PState → PState × Option String
  | [], st => (st, none)
  | entry :: rest, st =>
    match ext.writeDepVersion entry.1 krate version with
    | Except.error e => (st, some e)
    | Except.ok _ =>
      propagateLoop ext krate version rest
        { st with events := st.events ++ [Event.wroteDep entry.1 krate version] }

def propagateVersion (ext : Ext) (st : PState) (krate version : String) :
    PState × Option String :=
  match propagateLoop ext krate version st.crates st with
  | (st1, e) => ({ st1 with events := st1.events ++ [Event.checkpoint] }, e)

/-- One iteration of the `for krate in crates_to_publish` work loop
(src/main.rs lines 503-540): query versions, decide, optionally bump (under
a Save checkpoint) and publish, propagate the resulting version, and mark
the crate processed. -/
def processWorkCrate (ext : Ext) (verify : Option (List String)) (delay : Option Nat)
    (st : PState) (krate : String) : PState × Option String :=
  match lookupDetails st.crates krate with
  | none => (st, some ("Crate not found: " ++ krate))
  | some details =>
    match ext.crateVersions krate with
    | Except.error e => (st, some e)
    | Except.ok prev_versions =>
      match ext.needsPublishing krate prev_versions with
      | Except.error e => (st, some e)
      | Except.ok true =>
        match ext.maybeBumpVersion krate prev_versions with
        | Except.error e =>
          ({ st with events := st.events ++ [Event.checkpoint] }, some e)
        | Except.ok last_version =>
          let st1 : PState :=
            { crates := updateVersion st.crates krate last_version
              processed := st.processed
              events := st.events ++ [Event.bumped krate last_version, Event.checkpoint] }
          match ext.publishCrate krate verify delay with
          | Except.error e => (st1, some e)
          | Except.ok _ =>
            let st2 := { st1 with events := st1.events ++ [Event.published krate] }
            match propagateVersion ext st2 krate last_version with
            | (st3, some e) => (st3, some e)
            | (st3, none) => ({ st3 with processed := insertStr st3.processed krate }, none)
      | Except.ok false =>
        match propagateVersion ext st krate details.version with
        | (st3, some e) => (st3, some e)
        | (st3, none) => ({ st3 with processed := insertStr st3.processed krate }, none)

def processWork (ext : Ext) (verify : Option (List String)) (delay : Option Nat) :
    List String → PState → PState × Option String
  | [], st => (st, none)
  | krate :: rest, st =>
    match processWorkCrate ext verify delay st krate with
    | (st1, none) => processWork ext verify delay rest st1
    | (st1, some e) => (st1, some e)

/-- One iteration of the `for sel_crate in selected_crates` loop
(src/main.rs lines 437-543). -/
def processCrate (ext : Ext) (po : List String) (verify : Option (List String))
    (delay : Option Nat) (st : PState) (sel_crate : String) : PState × Option String :=
  if st.processed.any (fun p => p = sel_crate) then (st, none)
  else
    match syncDepVersions ext po st sel_crate with
    | (st1, some e) => (st1, some e)
    | (st1, none) =>
      match ext.whatNeedsPublishing sel_crate po with
      | Except.error e => (st1, some e)
      | Except.ok crates_to_publish =>
        if crates_to_publish.isEmpty then (st1, none)
        else
          let remaining := crates_to_publish.filter
            (fun krate => !(st1.processed.any (fun p => p = krate)))
          match processWork ext verify delay remaining st1 with
          | (st2, some e) => (st2, some e)
          | (st2, none) => ({ st2 with processed := insertStr st2.processed sel_crate }, none)

def runPipeline (ext : Ext) (po : List String) (verify : Option (List String))
    (delay : Option Nat) : List String → PState → PState × Option String
  | [], st => (st, none)
  | sel_crate :: rest, st =>
    match processCrate ext po verify delay st sel_crate with
    | (st1, none) => runPipeline ext po verify delay rest st1
    | (st1, some e) => (st1, some e)

/-- The `SPUB_REGISTRY` override (src/main.rs lines 417-421). -/
def setRegistryLoop (ext : Ext) (registry : String) :
    List (String × CrateDetails) → PState → PState × Option String
  | [], st => (st, none)
  | entry :: rest, st =>
    match ext.setRegistry entry.1 registry with
    | Except.error e => (st, some e)
    | Except.ok _ =>
      setRegistryLoop ext registry rest
        { st with events := st.events ++ [Event.registrySet entry.1] }

def setRegistryAll (ext : Ext) (registryEnv : Option String) (st : PState) :
    PState × Option String :=
  match registryEnv with
  | none => (st, none)
  | some registry => setRegistryLoop ext registry st.crates st

/-- `crates_to_verify` (src/main.rs lines 423-434): the suffix of
`publish_order` starting at `verify_from`, computed with the same
mutable-flag filter as the source. -/
def cratesToVerify (po : List String) (verify_from : Option String) :
    Option (List String) :=
  verify_from.map (fun vf =>
    (po.foldl (fun (st : List String × Bool) krate =>
      let v := if krate = vf then true else st.2
      (if v then st.1 ++ [krate] else st.1, v)) ([], false)).1)

/-- The `--post-check` stage (src/main.rs lines 545-568). -/
def postCheckLoop (ext : Ext) : List String → PState → PState × Option String
  | [], st => (st, none)
  | krate :: rest, st =>
    match ext.cargoCheck krate with
    | Except.error e => (st, some e)
    | Except.ok _ =>
      postCheckLoop ext rest { st with events := st.events ++ [Event.ranCargoCheck krate] }

def postCheck (ext : Ext) (st : PState) : PState × Option String :=
  match ext.cargoUpdate st.processed with
  | Except.error e => (st, some e)
  | Except.ok _ =>
    postCheckLoop ext st.processed
      { st with events := st.events ++ [Event.ranCargoUpdate st.processed] }

structure PublishOpts where
  crates : List String
  start_from : Option String
  verify_from : Option String
  after_publish_delay : Option Nat
  include_crates_dependents : Bool
  exclude : List String
  post_check : Bool

inductive PubError where
  | unorderable (names : List String)
  | lookupFailed (msg : String)
  | noCratesSelected
  | validation (e : ValidationError)
  | pipeline (msg : String)
  | postCheckFailed (msg : String)
deriving DecidableEq, Repr

/-- The `publish` driver (src/main.rs lines 132-571) for an already-loaded
workspace: the planning stages in source order, then the pipeline.  The
first component is the trace of mutations performed. -/
def publishRun (ext : Ext) (ws : Workspace) (registryEnv : Option String)
    (opts : PublishOpts) : List Event × Except PubError (List String) :=
  let po := publish_order ws
  let unordered := unordered_crates ws
  if !unordered.isEmpty then ([], Except.error (PubError.unorderable unordered))
  else
    match crates_to_exclude ws po opts.exclude with
    | Except.error e => ([], Except.error (PubError.lookupFailed e))
    | Except.ok excl =>
      match
        (if opts.crates.isEmpty then input_crates_all ws po excl opts.start_from
         else input_crates_selected ws po excl opts.crates opts.include_crates_dependents) with
      | Except.error e => ([], Except.error (PubError.lookupFailed e))
      | Except.ok input =>
        let sel := selected_crates_fn opts.start_from excl input
        if sel.isEmpty then ([], Except.error PubError.noCratesSelected)
        else
          match validateAll ws excl sel with
          | Except.error e => ([], Except.error (PubError.validation e))
          | Except.ok _ =>
            let st0 : PState := ⟨ws, [], []⟩
            match setRegistryAll ext registryEnv st0 with
            | (st1, some e) => (st1.events, Except.error (PubError.pipeline e))
            | (st1, none) =>
              let verify := cratesToVerify po opts.verify_from
              match runPipeline ext po verify opts.after_publish_delay sel st1 with
              | (st2, some e) => (st2.events, Except.error (PubError.pipeline e))
              | (st2, none) =>
                if opts.post_check then
                  match postCheck ext st2 with
                  | (st3, some e) => (st3.events, Except.error (PubError.postCheckFailed e))
                  | (st3, none) => (st3.events, Except.ok st3.processed)
                else (st2.events, Except.ok st2.processed)

/-! ## Derived notions used by the statements -/

/-- The rank recorded for a crate name in an ordered list (`0` when the
name is absent; every recorded rank is positive, so no confusion arises). -/
def rankIn (po : List OrderedCrate) (k : String) : Nat :=
  ((po.find? (fun oc => oc.name = k)).map OrderedCrate.rank).getD 0

/-- Keys not yet ordered; each progressing pass shrinks this list. -/
def missing (ws : Workspace) (po : List OrderedCrate) : List String :=
  (wsKeys ws).dedup.filter (fun k => !((poNames po).any (fun n => n = k)))

/-- The invariant maintained by the resolver loop: names are distinct
crate keys, every ordered crate has all its dependencies ordered, and its
rank is one plus the sum of its distinct dependencies' ranks. -/
def GoodPO (ws : Workspace) (po : List OrderedCrate) : Prop :=
  (poNames po).Nodup ∧
  ∀ oc ∈ po, oc.name ∈ wsKeys ws ∧
    (∀ d ∈ depsOf ws oc.name, d ∈ poNames po) ∧
    oc.rank = 1 + ((depsOf ws oc.name).dedup.map (rankIn po)).sum

/-- A crate reaches an explicitly excluded crate through
`dependencies_to_publish` edges: directly, or through an intermediate
crate of the publish order.  This is the spec's "directly or transitively
depends on an excluded package". -/
inductive ReachesExcluded (ws : Workspace) (po ex : List String) : String → Prop where
  | direct (k e : String) : e ∈ ex → e ∈ depsOf ws k → ReachesExcluded ws po ex k
  | step (k m : String) : m ∈ po → m ∈ depsOf ws k → ReachesExcluded ws po ex m →
      ReachesExcluded ws po ex k

/-! ## Concrete instances used by counterexamples and witnesses -/

/-- `a ← b ← c` chain workspace (`b` depends on `a`, `c` on `b`). -/
def detA : CrateDetails := ⟨"1.0.0", true, "a/Cargo.toml", []⟩

def detB : CrateDetails := ⟨"1.0.0", true, "b/Cargo.toml", ["a"]⟩

def detC : CrateDetails := ⟨"1.0.0", true, "c/Cargo.toml", ["b"]⟩

def wsABC : Workspace := [("c", detC), ("b", detB), ("a", detA)]

/-- The same crate map as `wsABC` under a different iteration order. -/
def wsABCrot : Workspace := [("b", detB), ("a", detA), ("c", detC)]

/-- Two crates depending on each other, plus an independent one. -/
def wsCyclic : Workspace :=
  [("x", ⟨"1.0.0", true, "x/Cargo.toml", ["y"]⟩),
   ("y", ⟨"1.0.0", true, "y/Cargo.toml", ["x"]⟩),
   ("a", detA)]

/-- The spec's selection example: `modern` depends on `legacy`; `other` is
independent. -/
def wsLegacy : Workspace :=
  [("modern", ⟨"1.0.0", true, "modern/Cargo.toml", ["legacy"]⟩),
   ("legacy", ⟨"1.0.0", true, "legacy/Cargo.toml", []⟩),
   ("other", ⟨"1.0.0", true, "other/Cargo.toml", []⟩)]

/-- The spec's validator example: `A -> B -> C`. -/
def wsValidator : Workspace :=
  [("A", ⟨"1.0.0", true, "A/Cargo.toml", ["B"]⟩),
   ("B", ⟨"1.0.0", true, "B/Cargo.toml", ["C"]⟩),
   ("C", ⟨"1.0.0", true, "C/Cargo.toml", []⟩)]

/-- A workspace whose first crate is marked not-publishable, for start-from
selection: `publish = false` on `s`, `t` ordinary. -/
def wsStartFrom : Workspace :=
  [("s", ⟨"1.0.0", false, "s/Cargo.toml", []⟩),
   ("t", ⟨"1.0.0", true, "t/Cargo.toml", []⟩)]

/-- External collaborators that always succeed and report an empty work
set. -/
def extTrivial : Ext where
  whatNeedsPublishing := fun _ _ => Except.ok []
  crateVersions := fun _ => Except.ok []
  needsPublishing := fun _ _ => Except.ok false
  maybeBumpVersion := fun _ _ => Except.ok "1.0.1"
  publishCrate := fun _ _ _ => Except.ok ()
  writeDepVersion := fun _ _ _ => Except.ok ()
  setRegistry := fun _ _ => Except.ok ()
  cargoUpdate := fun _ => Except.ok ()
  cargoCheck := fun _ => Except.ok ()

/-- A plain `publish` invocation: no explicit crates, no start-from, no
excludes. -/
def optsDefault : PublishOpts := ⟨[], none, none, none, false, [], false⟩

/-- A one-crate workspace for exercising a pipeline iteration. -/
def wsOneCrate : Workspace := [("a", ⟨"1.0.0", true, "a/Cargo.toml", []⟩)]

/-- Collaborators reporting a singleton work set that needs no publishing. -/
def extOneCrate : Ext :=
  { extTrivial with whatNeedsPublishing := fun krate _ => Except.ok [krate] }

/-- The pipeline state after processing `a` in `wsOneCrate` under
`extOneCrate`. -/
def pstateAfterA : PState :=
  ⟨wsOneCrate, ["a"],
    [Event.checkpoint, Event.wroteDep "a" "a" "1.0.0", Event.checkpoint]⟩

/-- A clean repository whose head commit is a leftover RevertLater
checkpoint (as left behind by an earlier, never-reverted
`with_checkpoint(RevertLater, g)`). -/
def gsLeftover : GitState Nat := ⟨⟨"initial commit", 0⟩, [⟨CHECKPOINT_REVERT, 1⟩], 1⟩

/-- A clean repository with a plain history. -/
def gsClean : GitState Nat := ⟨⟨"initial commit", 0⟩, [], 0⟩

/-- A dirty repository: the working tree differs from the head commit. -/
def gsDirty : GitState Nat := ⟨⟨"initial commit", 0⟩, [], 1⟩

end Subpub

namespace Subpub

/-! ## Resolver theory: structural lemmas about the fixed-point loop -/

theorem lookup_of_mem {ws : Workspace} (hnd : (wsKeys ws).Nodup)
    {e : String × CrateDetails} (he : e ∈ ws) : lookupDetails ws e.1 = some e.2 := by
  unfold lookupDetails
  induction ws with
  | nil => cases he
  | cons e0 rest ih =>
    rcases List.mem_cons.mp he with heq | he2
    · subst heq
      rw [List.find?_cons_of_pos _ (by simp)]
      rfl
    · have hkey : e.1 ∈ wsKeys rest := by
        simp [wsKeys]
        exact ⟨e.2, he2⟩
      have hne : ¬(e0.1 = e.1) := by
        intro heq0
        simp only [wsKeys, List.map_cons, List.nodup_cons] at hnd
        exact hnd.1 (heq0 ▸ hkey)
      rw [List.find?_cons_of_neg _ (by simp [hne])]
      apply ih
      · simp only [wsKeys, List.map_cons, List.nodup_cons] at hnd
        exact hnd.2
      · exact he2

theorem depsOf_entry {ws : Workspace} (hnd : (wsKeys ws).Nodup)
    {e : String × CrateDetails} (he : e ∈ ws) :
    depsOf ws e.1 = e.2.deps_to_publish := by
  simp [depsOf, lookup_of_mem hnd he]

theorem mem_wsKeys {ws : Workspace} {e : String × CrateDetails} (he : e ∈ ws) :
    e.1 ∈ wsKeys ws := by
  simp only [wsKeys, List.mem_map]
  exact ⟨e, he, rfl⟩

theorem passStep_append (po : List OrderedCrate) (e : String × CrateDetails) :
    ∃ t, passStep po e = po ++ t := by
  unfold passStep
  split
  · exact ⟨[], by simp⟩
  · dsimp only
    split
    · exact ⟨_, rfl⟩
    · exact ⟨[], by simp⟩

theorem orderPass_append (ws : Workspace) (po : List OrderedCrate) :
    ∃ t, orderPass ws po = po ++ t := by
  induction ws generalizing po with
  | nil => exact ⟨[], by simp [orderPass]⟩
  | cons e rest ih =>
    obtain ⟨t1, h1⟩ := passStep_append po e
    obtain ⟨t2, h2⟩ := ih (passStep po e)
    exact ⟨t1 ++ t2, by simp [orderPass] at h2 ⊢; rw [h2, h1, List.append_assoc]⟩

theorem orderPass_eq_of_length (ws : Workspace) (po : List OrderedCrate)
    (h : (orderPass ws po).length = po.length) : orderPass ws po = po := by
  obtain ⟨t, ht⟩ := orderPass_append ws po
  rw [ht] at h ⊢
  have hlen : (po ++ t).length = po.length + t.length := List.length_append po t
  have ht0 : t.length = 0 := by omega
  have : t = [] := List.length_eq_zero.mp ht0
  simp [this]

theorem mem_poNames (po : List OrderedCrate) (k : String) :
    k ∈ poNames po ↔ ∃ oc ∈ po, oc.name = k := by
  simp [poNames]

theorem passStep_progress {po : List OrderedCrate} {e : String × CrateDetails}
    (h : passStep po e ≠ po) :
    ∃ r, passStep po e = po ++ [⟨e.1, r⟩] ∧ e.1 ∉ poNames po := by
  unfold passStep at h ⊢
  cases hb : po.any (fun ord_crate => ord_crate.name = e.1) with
  | true => simp [hb] at h
  | false =>
    simp only [hb, Bool.false_eq_true, if_false] at h ⊢
    have hnm : e.1 ∉ poNames po := by
      intro hmem
      obtain ⟨oc, hoc, hname⟩ := (mem_poNames po e.1).mp hmem
      have : po.any (fun ord_crate => ord_crate.name = e.1) = true :=
        List.any_eq_true.mpr ⟨oc, hoc, by simp [hname]⟩
      rw [hb] at this; exact Bool.false_ne_true this
    by_cases hc :
        (po.filter (fun ord_crate =>
          e.2.deps_to_publish.dedup.any (fun dep => dep = ord_crate.name))).length
          = e.2.deps_to_publish.dedup.length
    · refine ⟨List.foldl (fun acc ord_crate => acc + ord_crate.rank) 1
        (po.filter (fun ord_crate =>
          e.2.deps_to_publish.dedup.any (fun dep => dep = ord_crate.name))), ?_, hnm⟩
      simp [hc]
    · simp [hc] at h

theorem orderPass_tail {ws : Workspace} {po t : List OrderedCrate}
    (h : orderPass ws po = po ++ t) :
    ∀ oc ∈ t, oc.name ∈ wsKeys ws ∧ oc.name ∉ poNames po := by
  induction ws generalizing po t with
  | nil =>
    simp only [orderPass, List.foldl_nil] at h
    have hnil : t = [] := by
      have h2 := congrArg List.length h
      rw [List.length_append] at h2
      exact List.length_eq_zero.mp (by omega)
    subst hnil; simp
  | cons e rest ih =>
    simp only [orderPass, List.foldl_cons] at h
    by_cases hstep : passStep po e = po
    · rw [hstep] at h
      intro oc hoc
      obtain ⟨hk, hn⟩ := ih h oc hoc
      refine ⟨?_, hn⟩
      simp [wsKeys] at hk ⊢
      exact Or.inr hk
    · obtain ⟨r, hr, hnm⟩ := passStep_progress hstep
      rw [hr] at h
      obtain ⟨t2, ht2⟩ := orderPass_append rest (po ++ [⟨e.1, r⟩])
      simp only [orderPass] at ht2
      rw [ht2, List.append_assoc] at h
      have ht : (⟨e.1, r⟩ : OrderedCrate) :: t2 = t := List.append_cancel_left h
      intro oc hoc
      rw [← ht] at hoc
      rcases List.mem_cons.mp hoc with heq | hoc2
      · subst heq
        exact ⟨by simp [wsKeys], hnm⟩
      · obtain ⟨hk, hn⟩ := ih ht2 oc hoc2
        refine ⟨?_, fun hmem => hn ?_⟩
        · simp [wsKeys] at hk ⊢
          exact Or.inr hk
        · simp [poNames] at hmem ⊢
          exact Or.inl hmem

theorem missing_length_lt {ws : Workspace} {po t : List OrderedCrate}
    (hne : t ≠ []) (h : orderPass ws po = po ++ t) :
    (missing ws (po ++ t)).length < (missing ws po).length := by
  set p := fun k => !((poNames po).any (fun n => n = k)) with hp
  set q := fun k => !((poNames (po ++ t)).any (fun n => n = k)) with hq
  have hqp : ∀ k, q k = true → p k = true := by
    intro k hk
    simp only [hq, Bool.not_eq_true', List.any_eq_false] at hk
    simp only [hp, Bool.not_eq_true', List.any_eq_false]
    intro n hn
    exact hk n (by simp [poNames] at hn ⊢; exact Or.inl hn)
  have hsub : List.Sublist (List.filter q ((wsKeys ws).dedup))
      (List.filter p ((wsKeys ws).dedup)) := by
    have heq : List.filter q ((wsKeys ws).dedup)
        = List.filter q (List.filter p ((wsKeys ws).dedup)) := by
      rw [List.filter_filter]
      apply List.filter_congr
      intro x _
      cases hqx : q x with
      | true => simp [hqx, hqp x hqx]
      | false => simp [hqx]
    rw [heq]
    exact List.filter_sublist _
  obtain ⟨oc, hoc⟩ := List.exists_mem_of_ne_nil t hne
  obtain ⟨hk, hn⟩ := orderPass_tail h oc hoc
  have ha : oc.name ∈ (wsKeys ws).dedup := List.mem_dedup.mpr hk
  have hpa : p oc.name = true := by
    simp only [hp, Bool.not_eq_true', List.any_eq_false]
    intro n hn2
    intro heq
    have hne : n = oc.name := of_decide_eq_true heq
    exact hn (hne ▸ hn2)
  have hmemt : oc.name ∈ poNames (po ++ t) := by
    rw [mem_poNames]
    exact ⟨oc, by simp [hoc], rfl⟩
  have hqa : q oc.name = false := by
    have hany : (poNames (po ++ t)).any (fun n => n = oc.name) = true :=
      List.any_eq_true.mpr ⟨oc.name, hmemt, by simp⟩
    simp [hq, hany]
  have hmemp : oc.name ∈ List.filter p ((wsKeys ws).dedup) :=
    List.mem_filter.mpr ⟨ha, hpa⟩
  have hmemq : oc.name ∉ List.filter q ((wsKeys ws).dedup) := by
    intro hmem
    have := (List.mem_filter.mp hmem).2
    rw [hqa] at this; exact Bool.false_ne_true this
  have hle := hsub.length_le
  rcases Nat.lt_or_ge (List.filter q ((wsKeys ws).dedup)).length
      (List.filter p ((wsKeys ws).dedup)).length with hlt | hge
  · simpa [missing, hp, hq] using hlt
  · exfalso
    have heq : List.filter q ((wsKeys ws).dedup) = List.filter p ((wsKeys ws).dedup) :=
      hsub.eq_of_length (Nat.le_antisymm hle hge)
    rw [heq] at hmemq
    exact hmemq hmemp

theorem orderLoop_fix (ws : Workspace) :
    ∀ (fuel : Nat) (po : List OrderedCrate), (missing ws po).length < fuel →
      orderPass ws (orderLoop ws fuel po) = orderLoop ws fuel po := by
  intro fuel
  induction fuel with
  | zero => intro po h; omega
  | succ fuel ih =>
    intro po h
    simp only [orderLoop]
    by_cases hlen : (orderPass ws po).length = po.length
    · simp only [hlen, if_true]
      exact orderPass_eq_of_length ws po hlen
    · simp only [hlen, if_false]
      obtain ⟨t, ht⟩ := orderPass_append ws po
      have hne : t ≠ [] := by
        intro h0; subst h0; simp at ht; exact hlen (by rw [ht])
      rw [ht]
      apply ih
      have := missing_length_lt hne ht
      omega

theorem orderFix_fix (ws : Workspace) :
    orderPass ws (orderFix ws) = orderFix ws := by
  apply orderLoop_fix
  have h1 : (missing ws []).length ≤ (wsKeys ws).dedup.length :=
    List.length_filter_le _ _
  have h2 : (wsKeys ws).dedup.length ≤ (wsKeys ws).length :=
    (List.dedup_sublist _).length_le
  have h3 : (wsKeys ws).length = ws.length := List.length_map _ _
  omega

theorem orderPass_fix_elem {ws : Workspace} {po : List OrderedCrate}
    (hfix : orderPass ws po = po) : ∀ e ∈ ws, passStep po e = po := by
  induction ws with
  | nil => intro e he; cases he
  | cons e0 rest ih =>
    simp only [orderPass, List.foldl_cons] at hfix
    obtain ⟨t0, ht0⟩ := passStep_append po e0
    obtain ⟨t1, ht1⟩ := orderPass_append rest (passStep po e0)
    simp only [orderPass] at ht1
    rw [ht1, ht0, List.append_assoc] at hfix
    have hlen := congrArg List.length hfix
    rw [List.length_append, List.length_append] at hlen
    have ht0nil : t0 = [] := List.length_eq_zero.mp (by omega)
    have ht1nil : t1 = [] := List.length_eq_zero.mp (by omega)
    have hstep : passStep po e0 = po := by rw [ht0, ht0nil]; simp
    intro e he
    rcases List.mem_cons.mp he with heq | he2
    · subst heq; exact hstep
    · apply ih
      · simp only [orderPass]
        rw [hstep] at ht1
        rw [ht1, ht1nil]
        simp
      · exact he2

/-! ## Rank and counting lemmas -/

theorem rankIn_of_mem {po : List OrderedCrate} (hnd : (poNames po).Nodup)
    {oc : OrderedCrate} (hoc : oc ∈ po) : rankIn po oc.name = oc.rank := by
  unfold rankIn
  have hsome : (po.find? (fun x => x.name = oc.name)).isSome :=
    List.find?_isSome.mpr ⟨oc, hoc, by simp⟩
  obtain ⟨f, hf⟩ := Option.isSome_iff_exists.mp hsome
  have hfm : f ∈ po := List.mem_of_find?_eq_some hf
  have hp := List.find?_some hf
  simp only [decide_eq_true_eq] at hp
  have hfn : f.name = oc.name := hp
  have hfe : f = oc := List.inj_on_of_nodup_map (by simpa [poNames] using hnd) hfm hoc hfn
  rw [hf, hfe]
  rfl

theorem entry_of_mem_poNames {po : List OrderedCrate} {k : String}
    (h : k ∈ poNames po) : (⟨k, rankIn po k⟩ : OrderedCrate) ∈ po := by
  obtain ⟨oc, hoc, hname⟩ := (mem_poNames po k).mp h
  have hsome : (po.find? (fun x => x.name = k)).isSome :=
    List.find?_isSome.mpr ⟨oc, hoc, by simp [hname]⟩
  obtain ⟨f, hf⟩ := Option.isSome_iff_exists.mp hsome
  have hfm : f ∈ po := List.mem_of_find?_eq_some hf
  have hp := List.find?_some hf
  simp only [decide_eq_true_eq] at hp
  have hfn : f.name = k := hp
  unfold rankIn
  rw [hf]
  cases f with
  | mk n r =>
    simp only at hfn
    subst hfn
    exact hfm

theorem rankIn_append {po t : List OrderedCrate} {d : String} (h : d ∈ poNames po) :
    rankIn (po ++ t) d = rankIn po d := by
  unfold rankIn
  rw [List.find?_append]
  obtain ⟨oc, hoc, hn⟩ := (mem_poNames po d).mp h
  have hsome : (po.find? (fun x => x.name = d)).isSome :=
    List.find?_isSome.mpr ⟨oc, hoc, by simp [hn]⟩
  obtain ⟨f, hf⟩ := Option.isSome_iff_exists.mp hsome
  rw [hf]
  rfl

theorem foldl_rank_sum (l : List OrderedCrate) (init : Nat) :
    l.foldl (fun acc oc => acc + oc.rank) init = init + (l.map OrderedCrate.rank).sum := by
  induction l generalizing init with
  | nil => simp
  | cons x xs ih =>
    simp only [List.foldl_cons, List.map_cons, List.sum_cons]
    rw [ih]
    omega

theorem filter_names_perm (po : List OrderedCrate) (D : List String)
    (hnd : (poNames po).Nodup) (hD : D.Nodup) (hsub : ∀ d ∈ D, d ∈ poNames po) :
    ((po.filter (fun oc => D.any (fun dep => dep = oc.name))).map OrderedCrate.name).Perm D := by
  apply (List.perm_ext_iff_of_nodup ?_ hD).mpr
  · intro a
    constructor
    · intro ha
      simp only [List.mem_map, List.mem_filter] at ha
      obtain ⟨oc, ⟨_, hany⟩, hname⟩ := ha
      obtain ⟨d, hd, hdeq⟩ := List.any_eq_true.mp hany
      have : d = oc.name := of_decide_eq_true hdeq
      rw [← hname, ← this]
      exact hd
    · intro ha
      have hmem : a ∈ poNames po := hsub a ha
      obtain ⟨oc, hoc, hname⟩ := (mem_poNames po a).mp hmem
      simp only [List.mem_map, List.mem_filter]
      exact ⟨oc, ⟨hoc, List.any_eq_true.mpr ⟨a, ha, by simp [hname]⟩⟩, hname⟩
  · exact ((List.filter_sublist po).map OrderedCrate.name).nodup (by simpa [poNames] using hnd)

theorem filter_length_of_sub (po : List OrderedCrate) (D : List String)
    (hnd : (poNames po).Nodup) (hD : D.Nodup) (hsub : ∀ d ∈ D, d ∈ poNames po) :
    (po.filter (fun oc => D.any (fun dep => dep = oc.name))).length = D.length := by
  have hperm := filter_names_perm po D hnd hD hsub
  have := hperm.length_eq
  simpa using this

theorem sub_of_filter_length (po : List OrderedCrate) (D : List String)
    (hnd : (poNames po).Nodup) (hD : D.Nodup)
    (hlen : (po.filter (fun oc => D.any (fun dep => dep = oc.name))).length = D.length) :
    ∀ d ∈ D, d ∈ poNames po := by
  set F := (po.filter (fun oc => D.any (fun dep => dep = oc.name))).map OrderedCrate.name
    with hF
  have hFnd : F.Nodup :=
    ((List.filter_sublist po).map OrderedCrate.name).nodup (by simpa [poNames] using hnd)
  have hFsub : ∀ a ∈ F, a ∈ D := by
    intro a ha
    simp only [hF, List.mem_map, List.mem_filter] at ha
    obtain ⟨oc, ⟨_, hany⟩, hname⟩ := ha
    obtain ⟨d, hd, hdeq⟩ := List.any_eq_true.mp hany
    have : d = oc.name := of_decide_eq_true hdeq
    rw [← hname, ← this]
    exact hd
  have hFlen : F.length = D.length := by simp [hF, hlen]
  have hsubperm : F.Subperm D := hFnd.subperm hFsub
  obtain ⟨l, hl1, hl2⟩ := hsubperm
  have hld : l = D := hl2.eq_of_length (hl1.length_eq.trans hFlen)
  have hperm : F.Perm D := hld ▸ hl1.symm
  intro d hd
  have : d ∈ F := hperm.mem_iff.mpr hd
  simp only [hF, List.mem_map, List.mem_filter] at this
  obtain ⟨oc, ⟨hoc, _⟩, hname⟩ := this
  exact (mem_poNames po d).mpr ⟨oc, hoc, hname⟩

/-! ## The resolver invariant -/

theorem passStep_spec {po : List OrderedCrate} {e : String × CrateDetails}
    (h : passStep po e ≠ po) :
    passStep po e = po ++ [⟨e.1, List.foldl (fun acc ord_crate => acc + ord_crate.rank) 1
      (po.filter (fun ord_crate =>
        e.2.deps_to_publish.dedup.any (fun dep => dep = ord_crate.name)))⟩]
    ∧ e.1 ∉ poNames po
    ∧ (po.filter (fun ord_crate =>
        e.2.deps_to_publish.dedup.any (fun dep => dep = ord_crate.name))).length
      = e.2.deps_to_publish.dedup.length := by
  unfold passStep at h ⊢
  cases hb : po.any (fun ord_crate => ord_crate.name = e.1) with
  | true => simp [hb] at h
  | false =>
    simp only [hb, Bool.false_eq_true, if_false] at h ⊢
    have hnm : e.1 ∉ poNames po := by
      intro hmem
      obtain ⟨oc, hoc, hname⟩ := (mem_poNames po e.1).mp hmem
      have : po.any (fun ord_crate => ord_crate.name = e.1) = true :=
        List.any_eq_true.mpr ⟨oc, hoc, by simp [hname]⟩
      rw [hb] at this; exact Bool.false_ne_true this
    by_cases hc :
        (po.filter (fun ord_crate =>
          e.2.deps_to_publish.dedup.any (fun dep => dep = ord_crate.name))).length
          = e.2.deps_to_publish.dedup.length
    · refine ⟨?_, hnm, hc⟩
      simp [hc]
    · simp [hc] at h

theorem passStep_good {ws : Workspace} (hndk : (wsKeys ws).Nodup)
    {po : List OrderedCrate} {e : String × CrateDetails} (he : e ∈ ws)
    (hg : GoodPO ws po) : GoodPO ws (passStep po e) := by
  by_cases hstep : passStep po e = po
  · rw [hstep]; exact hg
  obtain ⟨heq, hnm, hlen⟩ := passStep_spec hstep
  obtain ⟨hnd, hmem⟩ := hg
  have hDnd : e.2.deps_to_publish.dedup.Nodup := List.nodup_dedup _
  have hDsub : ∀ d ∈ e.2.deps_to_publish.dedup, d ∈ poNames po :=
    sub_of_filter_length po _ hnd hDnd hlen
  rw [heq]
  constructor
  · simp only [poNames, List.map_append, List.map_cons, List.map_nil]
    rw [List.nodup_append]
    refine ⟨by simpa [poNames] using hnd, List.nodup_singleton _, ?_⟩
    intro a ha hb
    simp only [List.mem_singleton] at hb
    subst hb
    exact hnm (by simpa [poNames] using ha)
  · intro oc hoc
    rcases List.mem_append.mp hoc with hold | hnew
    · obtain ⟨hk, hdeps, hrank⟩ := hmem oc hold
      refine ⟨hk, ?_, ?_⟩
      · intro d hd
        simp only [poNames, List.map_append]
        exact List.mem_append.mpr (Or.inl (hdeps d hd))
      · rw [hrank]
        congr 1
        apply congrArg List.sum
        apply List.map_congr_left
        intro d hd
        exact (rankIn_append (hdeps d (List.mem_dedup.mp hd))).symm
    · simp only [List.mem_singleton] at hnew
      subst hnew
      have hdeq : depsOf ws e.1 = e.2.deps_to_publish := depsOf_entry hndk he
      refine ⟨mem_wsKeys he, ?_, ?_⟩
      · intro d hd
        rw [hdeq] at hd
        have : d ∈ poNames po := hDsub d (List.mem_dedup.mpr hd)
        simp only [poNames, List.map_append]
        exact List.mem_append.mpr (Or.inl this)
      · simp only
        rw [hdeq]
        rw [foldl_rank_sum]
        congr 1
        have hstep1 : (po.filter (fun ord_crate =>
            e.2.deps_to_publish.dedup.any (fun dep => dep = ord_crate.name))).map
              OrderedCrate.rank
            = ((po.filter (fun ord_crate =>
                e.2.deps_to_publish.dedup.any (fun dep => dep = ord_crate.name))).map
                  OrderedCrate.name).map (rankIn po) := by
          rw [List.map_map]
          apply List.map_congr_left
          intro oc hoc2
          have : oc ∈ po := (List.mem_filter.mp hoc2).1
          exact (rankIn_of_mem hnd this).symm
        rw [hstep1]
        have hperm := (filter_names_perm po _ hnd hDnd hDsub).map (rankIn po)
        rw [hperm.sum_eq]
        apply congrArg List.sum
        apply List.map_congr_left
        intro d hd
        exact (rankIn_append (hDsub d hd)).symm

theorem foldl_passStep_good {ws : Workspace} (hndk : (wsKeys ws).Nodup) :
    ∀ (ws' : List (String × CrateDetails)), (∀ e ∈ ws', e ∈ ws) →
      ∀ po, GoodPO ws po → GoodPO ws (List.foldl passStep po ws') := by
  intro ws'
  induction ws' with
  | nil => intro _ po hg; simpa using hg
  | cons e rest ih =>
    intro hsub po hg
    simp only [List.foldl_cons]
    exact ih (fun x hx => hsub x (List.mem_cons_of_mem _ hx)) _
      (passStep_good hndk (hsub e (List.mem_cons_self _ _)) hg)

theorem orderPass_good {ws : Workspace} (hndk : (wsKeys ws).Nodup)
    {po : List OrderedCrate} (hg : GoodPO ws po) : GoodPO ws (orderPass ws po) :=
  foldl_passStep_good hndk ws (fun _ hx => hx) po hg

theorem orderLoop_good {ws : Workspace} (hndk : (wsKeys ws).Nodup) :
    ∀ (fuel : Nat) (po : List OrderedCrate), GoodPO ws po →
      GoodPO ws (orderLoop ws fuel po) := by
  intro fuel
  induction fuel with
  | zero => intro po hg; exact hg
  | succ fuel ih =>
    intro po hg
    simp only [orderLoop]
    by_cases hlen : (orderPass ws po).length = po.length
    · simpa [hlen] using hg
    · simp only [hlen, if_false]
      exact ih _ (orderPass_good hndk hg)

theorem orderFix_good {ws : Workspace} (hndk : (wsKeys ws).Nodup) :
    GoodPO ws (orderFix ws) := by
  apply orderLoop_good hndk
  exact ⟨List.nodup_nil, by intro oc h; cases h⟩

theorem rankIn_strict {ws : Workspace} {po : List OrderedCrate} (hg : GoodPO ws po)
    {k d : String} (hk : k ∈ poNames po) (hd : d ∈ depsOf ws k) :
    rankIn po d < rankIn po k := by
  obtain ⟨hnd, hmem⟩ := hg
  have hoc := entry_of_mem_poNames hk
  obtain ⟨-, -, hrank⟩ := hmem _ hoc
  simp only at hrank
  have hdin : rankIn po d ∈ ((depsOf ws k).dedup).map (rankIn po) :=
    List.mem_map_of_mem _ (List.mem_dedup.mpr hd)
  have hle : rankIn po d ≤ (((depsOf ws k).dedup).map (rankIn po)).sum :=
    List.single_le_sum (fun x _ => Nat.zero_le x) _ hdin
  omega

theorem good_deps_mem {ws : Workspace} {po : List OrderedCrate} (hg : GoodPO ws po)
    {k d : String} (hk : k ∈ poNames po) (hd : d ∈ depsOf ws k) : d ∈ poNames po := by
  obtain ⟨-, hmem⟩ := hg
  have hoc := entry_of_mem_poNames hk
  obtain ⟨-, hdeps, -⟩ := hmem _ hoc
  exact hdeps d hd

theorem fix_complete {ws : Workspace} {po : List OrderedCrate}
    (hnd : (poNames po).Nodup) (hfix : orderPass ws po = po)
    {e : String × CrateDetails} (he : e ∈ ws)
    (hdeps : ∀ d ∈ e.2.deps_to_publish, d ∈ poNames po) : e.1 ∈ poNames po := by
  have hstep := orderPass_fix_elem hfix e he
  by_contra hnm
  have hany : po.any (fun ord_crate => ord_crate.name = e.1) = false := by
    cases hx : po.any (fun ord_crate => ord_crate.name = e.1) with
    | false => rfl
    | true =>
      exfalso
      obtain ⟨oc, hoc, hocn⟩ := List.any_eq_true.mp hx
      have : oc.name = e.1 := of_decide_eq_true hocn
      exact hnm ((mem_poNames po e.1).mpr ⟨oc, hoc, this⟩)
  have hlen := filter_length_of_sub po e.2.deps_to_publish.dedup hnd
    (List.nodup_dedup _) (fun d hd => hdeps d (List.mem_dedup.mp hd))
  unfold passStep at hstep
  simp only [hany, Bool.false_eq_true, if_false, hlen, if_true] at hstep
  have := congrArg List.length hstep
  rw [List.length_append] at this
  simp at this

/-! ## Completeness on acyclic graphs, and the sort -/

theorem acyclic_complete {ws : Workspace} (hndk : (wsKeys ws).Nodup)
    (hac : acyclicCheck ws = true) (hcl : depsClosedCheck ws = true) :
    ∀ k ∈ wsKeys ws, k ∈ poNames (orderFix ws) := by
  have hg := orderFix_good hndk
  have hnd := hg.1
  by_contra hcon
  push_neg at hcon
  obtain ⟨k0, hk0, hk0n⟩ := hcon
  set M := (wsKeys ws).filter
    (fun k => !((poNames (orderFix ws)).any (fun n => n = k))) with hM
  have hk0M : k0 ∈ M := by
    rw [hM, List.mem_filter]
    refine ⟨hk0, ?_⟩
    simp only [Bool.not_eq_true', List.any_eq_false]
    intro n hn
    simp only [decide_eq_true_eq]
    intro heq
    exact hk0n (heq ▸ hn)
  have hMne : M ≠ [] := fun h0 => by rw [h0] at hk0M; cases hk0M
  have hMsub : List.Sublist M (wsKeys ws) := List.filter_sublist _
  have hallM := List.all_eq_true.mp hac M (List.mem_sublists.mpr hMsub)
  rw [Bool.or_eq_true] at hallM
  rcases hallM with hemp | hany
  · rw [List.isEmpty_iff] at hemp
    exact hMne hemp
  · obtain ⟨m, hm, hmprop⟩ := List.any_eq_true.mp hany
    have hmkeys : m ∈ wsKeys ws := (List.mem_filter.mp (hM ▸ hm)).1
    have hmnot : m ∉ poNames (orderFix ws) := by
      have := (List.mem_filter.mp (hM ▸ hm)).2
      simp only [Bool.not_eq_true', List.any_eq_false] at this
      intro hmem
      have h2 := this m hmem
      simp at h2
    obtain ⟨e, he, hek⟩ := List.mem_map.mp hmkeys
    have hdeq : depsOf ws m = e.2.deps_to_publish := hek ▸ depsOf_entry hndk he
    have hdeps : ∀ d ∈ e.2.deps_to_publish, d ∈ poNames (orderFix ws) := by
      intro d hd
      have hdkeys : d ∈ wsKeys ws := by
        have hcl2 := List.all_eq_true.mp hcl e he
        have := List.all_eq_true.mp hcl2 d hd
        obtain ⟨k, hk, hkeq⟩ := List.any_eq_true.mp this
        have : k = d := of_decide_eq_true hkeq
        exact this ▸ hk
      have hdnM : d ∉ M := by
        have := List.all_eq_true.mp hmprop d (hdeq ▸ hd)
        simp only [Bool.not_eq_true', List.any_eq_false] at this
        intro hdM
        have h2 := this d hdM
        simp at h2
      by_contra hdn
      apply hdnM
      rw [hM, List.mem_filter]
      refine ⟨hdkeys, ?_⟩
      simp only [Bool.not_eq_true', List.any_eq_false]
      intro n hn
      simp only [decide_eq_true_eq]
      intro heq
      exact hdn (heq ▸ hn)
    have := fix_complete hnd (orderFix_fix ws) he hdeps
    exact hmnot (hek ▸ this)

theorem charsLt_irrefl : ∀ (l : List Char), charsLt l l = false := by
  intro l
  induction l with
  | nil => rfl
  | cons a as ih =>
    simp only [charsLt]
    rw [if_neg (lt_irrefl a), if_neg (lt_irrefl a)]
    exact ih

theorem charsLt_trans : ∀ (l1 l2 l3 : List Char), charsLt l1 l2 = true →
    charsLt l2 l3 = true → charsLt l1 l3 = true := by
  intro l1
  induction l1 with
  | nil =>
    intro l2 l3 h12 h23
    cases l2 with
    | nil => simp [charsLt] at h12
    | cons b bs =>
      cases l3 with
      | nil => simp [charsLt] at h23
      | cons c cs => simp [charsLt]
  | cons a as ih =>
    intro l2 l3 h12 h23
    cases l2 with
    | nil => simp [charsLt] at h12
    | cons b bs =>
      cases l3 with
      | nil => simp [charsLt] at h23
      | cons c cs =>
        simp only [charsLt] at h12 h23 ⊢
        by_cases hab : a < b
        · rw [if_pos hab] at h12
          by_cases hbc : b < c
          · rw [if_pos (lt_trans hab hbc)]
          · rw [if_neg hbc] at h23
            by_cases hcb : c < b
            · rw [if_pos hcb] at h23; cases h23
            · have hbceq : b = c := le_antisymm (not_lt.mp hcb) (not_lt.mp hbc)
              rw [if_pos (hbceq ▸ hab)]
        · rw [if_neg hab] at h12
          by_cases hba : b < a
          · rw [if_pos hba] at h12; cases h12
          · rw [if_neg hba] at h12
            have habeq : a = b := le_antisymm (not_lt.mp hba) (not_lt.mp hab)
            subst habeq
            by_cases hac : a < c
            · rw [if_pos hac]
            · rw [if_neg hac] at h23 ⊢
              by_cases hca : c < a
              · rw [if_pos hca] at h23; cases h23
              · rw [if_neg hca] at h23 ⊢
                exact ih bs cs h12 h23

theorem charsLt_connex : ∀ (l1 l2 : List Char), charsLt l1 l2 = false →
    charsLt l2 l1 = false → l1 = l2 := by
  intro l1
  induction l1 with
  | nil =>
    intro l2 h12 _
    cases l2 with
    | nil => rfl
    | cons b bs => simp [charsLt] at h12
  | cons a as ih =>
    intro l2 h12 h21
    cases l2 with
    | nil => simp [charsLt] at h21
    | cons b bs =>
      simp only [charsLt] at h12 h21
      by_cases hab : a < b
      · rw [if_pos hab] at h12; cases h12
      · rw [if_neg hab] at h12
        by_cases hba : b < a
        · rw [if_pos hba] at h21; cases h21
        · rw [if_neg hba] at h12 h21
          rw [if_neg hab] at h21
          have habeq : a = b := le_antisymm (not_lt.mp hba) (not_lt.mp hab)
          rw [habeq, ih bs h12 h21]

theorem charsLt_asymm {l1 l2 : List Char} (h : charsLt l1 l2 = true) :
    charsLt l2 l1 = false := by
  cases h21 : charsLt l2 l1 with
  | false => rfl
  | true =>
    have := charsLt_trans l1 l2 l1 h h21
    rw [charsLt_irrefl l1] at this
    cases this

theorem nameLe_trans {a b c : String} (hab : nameLe a b = true)
    (hbc : nameLe b c = true) : nameLe a c = true := by
  unfold nameLe at hab hbc ⊢
  rw [Bool.not_eq_true'] at hab hbc
  rw [Bool.not_eq_true']
  cases hca : charsLt c.data a.data with
  | false => rfl
  | true =>
    exfalso
    cases hbcc : charsLt b.data c.data with
    | true =>
      have hba := charsLt_trans _ _ _ hbcc hca
      rw [hab] at hba
      cases hba
    | false =>
      have hbceq : b.data = c.data := charsLt_connex _ _ hbcc hbc
      rw [← hbceq] at hca
      rw [hab] at hca
      cases hca

theorem nameLe_total (a b : String) : (nameLe a b || nameLe b a) = true := by
  unfold nameLe
  cases hba : charsLt b.data a.data with
  | false => simp
  | true =>
    have := charsLt_asymm hba
    simp [this]

theorem nameLe_antisymm {a b : String} (hab : nameLe a b = true)
    (hba : nameLe b a = true) : a = b := by
  unfold nameLe at hab hba
  rw [Bool.not_eq_true'] at hab hba
  have hdata : a.data = b.data := charsLt_connex _ _ hba hab
  cases a; cases b
  simp only at hdata
  rw [hdata]

theorem ordLe_trans (a b c : OrderedCrate) (hab : ordLe a b = true)
    (hbc : ordLe b c = true) : ordLe a c = true := by
  simp only [ordLe, Bool.or_eq_true, Bool.and_eq_true, decide_eq_true_eq] at hab hbc ⊢
  rcases hab with h1 | ⟨h1, h2⟩ <;> rcases hbc with h3 | ⟨h3, h4⟩
  · exact Or.inl (Nat.lt_trans h1 h3)
  · exact Or.inl (h3 ▸ h1)
  · exact Or.inl (h1 ▸ h3)
  · exact Or.inr ⟨h1.trans h3, nameLe_trans h2 h4⟩

theorem ordLe_total (a b : OrderedCrate) : (ordLe a b || ordLe b a) = true := by
  simp only [ordLe, Bool.or_eq_true, Bool.and_eq_true, decide_eq_true_eq]
  rcases Nat.lt_trichotomy a.rank b.rank with h | h | h
  · exact Or.inl (Or.inl h)
  · have h2t := nameLe_total a.name b.name
    rw [Bool.or_eq_true] at h2t
    rcases h2t with h2 | h2
    · exact Or.inl (Or.inr ⟨h, h2⟩)
    · exact Or.inr (Or.inr ⟨h.symm, h2⟩)
  · exact Or.inr (Or.inl h)

theorem sorted_index_lt {L : List OrderedCrate} (hnd : (poNames L).Nodup)
    (hsort : List.Pairwise (fun a b => ordLe a b = true) L)
    {dEntry pEntry : OrderedCrate} (hd : dEntry ∈ L) (hp : pEntry ∈ L)
    (hrank : dEntry.rank < pEntry.rank) :
    (poNames L).indexOf dEntry.name < (poNames L).indexOf pEntry.name := by
  obtain ⟨i, hi⟩ := List.mem_iff_get.mp hd
  obtain ⟨j, hj⟩ := List.mem_iff_get.mp hp
  have hlen : (poNames L).length = L.length := List.length_map _ _
  rw [List.get_eq_getElem] at hi hj
  have hgeti : (poNames L).get ⟨i.1, by omega⟩ = dEntry.name := by
    simp [poNames, hi]
  have hgetj : (poNames L).get ⟨j.1, by omega⟩ = pEntry.name := by
    simp [poNames, hj]
  have hidxi : (poNames L).indexOf dEntry.name = i.1 := by
    rw [← hgeti]
    exact List.get_indexOf hnd _
  have hidxj : (poNames L).indexOf pEntry.name = j.1 := by
    rw [← hgetj]
    exact List.get_indexOf hnd _
  rw [hidxi, hidxj]
  rcases Nat.lt_trichotomy i.1 j.1 with h | h | h
  · exact h
  · exfalso
    have : i = j := Fin.ext h
    rw [this, hj] at hi
    rw [hi] at hrank
    omega
  · exfalso
    have hle := List.pairwise_iff_get.mp hsort j i (by exact h)
    rw [List.get_eq_getElem, List.get_eq_getElem, hi, hj] at hle
    simp only [ordLe, Bool.or_eq_true, Bool.and_eq_true, decide_eq_true_eq] at hle
    rcases hle with h1 | ⟨h1, -⟩
    · omega
    · omega

/-! ## Claim C1 -/

/-- C1: for every workspace with distinct crate names whose
`dependencies_to_publish` graph is acyclic (and, per the spec's data model,
refers only to workspace packages), the publish order produced by the
resolver — rank assignment followed by sorting on rank then name — is a
valid topological order: every package appears, and each of its
dependencies appears at a strictly smaller index. -/
theorem publish_order_topological (ws : Workspace)
    (hndk : (wsKeys ws).Nodup) (hac : acyclicCheck ws = true)
    (hcl : depsClosedCheck ws = true) :
    ∀ p ∈ wsKeys ws, p ∈ publish_order ws ∧
      ∀ d ∈ depsOf ws p,
        (publish_order ws).indexOf d < (publish_order ws).indexOf p := by
  have hg := orderFix_good hndk
  have hnd := hg.1
  have hperm : ((orderFix ws).mergeSort ordLe).Perm (orderFix ws) :=
    List.mergeSort_perm _ _
  have hnamesperm : (poNames ((orderFix ws).mergeSort ordLe)).Perm (poNames (orderFix ws)) :=
    hperm.map _
  have hndL : (poNames ((orderFix ws).mergeSort ordLe)).Nodup :=
    hnamesperm.nodup_iff.mpr hnd
  have hpo : publish_order ws = poNames ((orderFix ws).mergeSort ordLe) := rfl
  have hsort : List.Pairwise (fun a b => ordLe a b = true) ((orderFix ws).mergeSort ordLe) :=
    List.sorted_mergeSort ordLe_trans ordLe_total (orderFix ws)
  intro p hp
  have hpmem : p ∈ poNames (orderFix ws) := acyclic_complete hndk hac hcl p hp
  have hpmemL : p ∈ publish_order ws := by
    rw [hpo]
    exact hnamesperm.mem_iff.mpr hpmem
  refine ⟨hpmemL, ?_⟩
  intro d hd
  have hdmem : d ∈ poNames (orderFix ws) := good_deps_mem hg hpmem hd
  have hrlt : rankIn (orderFix ws) d < rankIn (orderFix ws) p := rankIn_strict hg hpmem hd
  have hdE : (⟨d, rankIn (orderFix ws) d⟩ : OrderedCrate) ∈ (orderFix ws).mergeSort ordLe :=
    hperm.mem_iff.mpr (entry_of_mem_poNames hdmem)
  have hpE : (⟨p, rankIn (orderFix ws) p⟩ : OrderedCrate) ∈ (orderFix ws).mergeSort ordLe :=
    hperm.mem_iff.mpr (entry_of_mem_poNames hpmem)
  rw [hpo]
  exact sorted_index_lt hndL hsort hdE hpE hrlt

/-- Witness for C1 at the chain workspace `a ← b ← c`. -/
theorem publish_order_topological_witness :
    ((wsKeys wsABC).Nodup ∧ acyclicCheck wsABC = true ∧ depsClosedCheck wsABC = true) ∧
      (∀ p ∈ wsKeys wsABC, p ∈ publish_order wsABC ∧
        ∀ d ∈ depsOf wsABC p,
          (publish_order wsABC).indexOf d < (publish_order wsABC).indexOf p) :=
  ⟨⟨by decide, by decide, by decide⟩,
    publish_order_topological wsABC (by decide) (by decide) (by decide)⟩

/-! ## Claim C3 -/

theorem mem_unordered (ws : Workspace) (k : String) :
    k ∈ unordered_crates ws ↔ k ∈ wsKeys ws ∧ k ∉ publish_order ws := by
  unfold unordered_crates
  rw [List.mem_filter]
  constructor
  · rintro ⟨h1, h2⟩
    refine ⟨h1, ?_⟩
    simp only [Bool.not_eq_true', List.any_eq_false] at h2
    intro hmem
    have := h2 k hmem
    simp at this
  · rintro ⟨h1, h2⟩
    refine ⟨h1, ?_⟩
    simp only [Bool.not_eq_true', List.any_eq_false]
    intro x hx
    simp only [decide_eq_true_eq]
    intro heq
    exact h2 (heq ▸ hx)

theorem mem_publish_order {ws : Workspace} {k : String} :
    k ∈ publish_order ws ↔ k ∈ poNames (orderFix ws) :=
  (((orderFix ws).mergeSort_perm ordLe).map OrderedCrate.name).mem_iff

theorem cycle_unordered {ws : Workspace} (hndk : (wsKeys ws).Nodup)
    {S : List String} (hS : ∀ m ∈ S, ∃ d ∈ depsOf ws m, d ∈ S) :
    ∀ m ∈ S, m ∉ poNames (orderFix ws) := by
  have hg := orderFix_good hndk
  suffices h : ∀ r m, m ∈ S → m ∈ poNames (orderFix ws) →
      rankIn (orderFix ws) m ≤ r → False by
    intro m hm hmem
    exact h (rankIn (orderFix ws) m) m hm hmem le_rfl
  intro r
  induction r with
  | zero =>
    intro m hm hmem hle
    obtain ⟨d, hd, -⟩ := hS m hm
    have := rankIn_strict hg hmem hd
    omega
  | succ r ih =>
    intro m hm hmem _
    obtain ⟨d, hd, hdS⟩ := hS m hm
    have hlt := rankIn_strict hg hmem hd
    exact ih d hdS (good_deps_mem hg hmem hd) (by omega)

theorem missing_dep_unordered {ws : Workspace} (hndk : (wsKeys ws).Nodup)
    {e : String × CrateDetails} (he : e ∈ ws) {d : String}
    (hd : d ∈ e.2.deps_to_publish) (hdk : d ∉ wsKeys ws) :
    e.1 ∉ poNames (orderFix ws) := by
  have hg := orderFix_good hndk
  intro hmem
  have hdeq : depsOf ws e.1 = e.2.deps_to_publish := depsOf_entry hndk he
  have hdmem : d ∈ poNames (orderFix ws) := good_deps_mem hg hmem (hdeq ▸ hd)
  obtain ⟨-, hmem2⟩ := hg
  obtain ⟨hk, -, -⟩ := hmem2 _ (entry_of_mem_poNames hdmem)
  exact hdk hk

/-- C3: on a workspace whose graph has a cycle among
`dependencies_to_publish` edges or a dependency reference to a missing
package, the resolver's fixed-point loop terminates (its result is a
genuine fixed point), some crates are unorderable, and the whole run
aborts with an error naming exactly the keys missing from the publish
order — with an empty mutation trace, i.e. before any filesystem
mutation. -/
theorem resolver_failure_aborts (ws : Workspace) (ext : Ext)
    (registryEnv : Option String) (opts : PublishOpts)
    (hndk : (wsKeys ws).Nodup)
    (h : (acyclicCheck ws && depsClosedCheck ws) = false) :
    unordered_crates ws ≠ [] ∧
    orderPass ws (orderFix ws) = orderFix ws ∧
    publishRun ext ws registryEnv opts
      = ([], Except.error (PubError.unorderable (unordered_crates ws))) ∧
    (∀ k, k ∈ unordered_crates ws ↔ k ∈ wsKeys ws ∧ k ∉ publish_order ws) := by
  have hne : unordered_crates ws ≠ [] := by
    rcases Bool.and_eq_false_iff.mp h with hac | hcl
    · -- a cycle: some nonempty sublist of the keys where everyone has a
      -- dependency inside the sublist
      obtain ⟨S, hSmem, hSprop⟩ := List.all_eq_false.mp hac
      rw [Bool.not_eq_true, Bool.or_eq_false_iff] at hSprop
      obtain ⟨hSne, hSany⟩ := hSprop
      have hSne2 : S ≠ [] := fun h0 => by
        rw [h0] at hSne; simp [List.isEmpty] at hSne
      have hSsub : List.Sublist S (wsKeys ws) := List.mem_sublists.mp hSmem
      have hS : ∀ m ∈ S, ∃ d ∈ depsOf ws m, d ∈ S := by
        intro m hm
        have hall := List.any_eq_false.mp hSany m hm
        rw [Bool.not_eq_true] at hall
        obtain ⟨d, hd, hdprop⟩ := List.all_eq_false.mp hall
        have hdany : S.any (fun x => decide (x = d)) = true := by
          cases hy : S.any (fun x => decide (x = d)) with
          | true => rfl
          | false => rw [hy] at hdprop; simp at hdprop
        obtain ⟨x, hx, hxeq⟩ := List.any_eq_true.mp hdany
        have : x = d := of_decide_eq_true hxeq
        exact ⟨d, hd, this ▸ hx⟩
      obtain ⟨m, hm⟩ := List.exists_mem_of_ne_nil S hSne2
      have hmk : m ∈ wsKeys ws := hSsub.mem hm
      have hnotin : m ∉ poNames (orderFix ws) := cycle_unordered hndk hS m hm
      intro h0
      have := (mem_unordered ws m).mpr ⟨hmk, fun hp => hnotin (mem_publish_order.mp hp)⟩
      rw [h0] at this
      cases this
    · -- a dependency reference to a missing package
      obtain ⟨e, he, heprop⟩ := List.all_eq_false.mp hcl
      rw [Bool.not_eq_true] at heprop
      obtain ⟨d, hd, hdprop⟩ := List.all_eq_false.mp heprop
      rw [Bool.not_eq_true] at hdprop
      have hdk : d ∉ wsKeys ws := by
        intro hdk
        have := List.any_eq_false.mp hdprop d hdk
        simp at this
      have hnotin : e.1 ∉ poNames (orderFix ws) := missing_dep_unordered hndk he hd hdk
      intro h0
      have := (mem_unordered ws e.1).mpr
        ⟨mem_wsKeys he, fun hp => hnotin (mem_publish_order.mp hp)⟩
      rw [h0] at this
      cases this
  have hie : (unordered_crates ws).isEmpty = false := List.isEmpty_eq_false.mpr hne
  refine ⟨hne, orderFix_fix ws, ?_, fun k => mem_unordered ws k⟩
  simp only [publishRun, hie, Bool.not_false, if_true]

/-- Witness for C3 at the cyclic workspace `x ↔ y` plus `a`. -/
theorem resolver_failure_aborts_witness :
    ((wsKeys wsCyclic).Nodup ∧
      (acyclicCheck wsCyclic && depsClosedCheck wsCyclic) = false) ∧
    (unordered_crates wsCyclic ≠ [] ∧
      orderPass wsCyclic (orderFix wsCyclic) = orderFix wsCyclic ∧
      publishRun extTrivial wsCyclic none optsDefault
        = ([], Except.error (PubError.unorderable (unordered_crates wsCyclic))) ∧
      (∀ k, k ∈ unordered_crates wsCyclic ↔
        k ∈ wsKeys wsCyclic ∧ k ∉ publish_order wsCyclic)) :=
  ⟨⟨by decide, by decide⟩,
    resolver_failure_aborts wsCyclic extTrivial none optsDefault (by decide) (by decide)⟩

/-! ## Claim C4: determinism of the resolver -/

theorem lookup_perm {ws₁ ws₂ : Workspace} (hnd₁ : (wsKeys ws₁).Nodup)
    (hperm : ws₁.Perm ws₂) (k : String) :
    lookupDetails ws₁ k = lookupDetails ws₂ k := by
  have hnd₂ : (wsKeys ws₂).Nodup := ((hperm.map Prod.fst).nodup_iff).mp hnd₁
  cases hfind : List.find? (fun e => e.1 = k) ws₁ with
  | some e =>
    have hmem : e ∈ ws₁ := List.mem_of_find?_eq_some hfind
    have hp := List.find?_some hfind
    simp only [decide_eq_true_eq] at hp
    have h2 : lookupDetails ws₂ e.1 = some e.2 :=
      lookup_of_mem hnd₂ (hperm.mem_iff.mp hmem)
    rw [hp] at h2
    have h1 : lookupDetails ws₁ k = some e.2 := by simp [lookupDetails, hfind]
    rw [h1, h2]
  | none =>
    have h1 : lookupDetails ws₁ k = none := by simp [lookupDetails, hfind]
    have hnk : k ∉ wsKeys ws₁ := by
      intro hk
      obtain ⟨e, he, hek⟩ := List.mem_map.mp hk
      have := List.find?_eq_none.mp hfind e he
      simp [hek] at this
    have h2 : List.find? (fun e => e.1 = k) ws₂ = none := by
      rw [List.find?_eq_none]
      intro e he
      simp only [decide_eq_true_eq]
      intro heq
      exact hnk (heq ▸ mem_wsKeys (hperm.mem_iff.mpr he))
    have h3 : lookupDetails ws₂ k = none := by
      unfold lookupDetails
      rw [h2]
      rfl
    rw [h1, h3]

theorem depsOf_perm {ws₁ ws₂ : Workspace} (hnd₁ : (wsKeys ws₁).Nodup)
    (hperm : ws₁.Perm ws₂) (k : String) : depsOf ws₁ k = depsOf ws₂ k := by
  simp [depsOf, lookup_perm hnd₁ hperm k]

theorem fix_transfer {ws₁ ws₂ : Workspace} (hnd₁ : (wsKeys ws₁).Nodup)
    (hperm : ws₁.Perm ws₂) :
    ∀ k ∈ poNames (orderFix ws₁), k ∈ poNames (orderFix ws₂) ∧
      rankIn (orderFix ws₂) k = rankIn (orderFix ws₁) k := by
  have hnd₂ : (wsKeys ws₂).Nodup := ((hperm.map Prod.fst).nodup_iff).mp hnd₁
  have hg₁ := orderFix_good hnd₁
  have hg₂ := orderFix_good hnd₂
  suffices h : ∀ (r : Nat), ∀ k ∈ poNames (orderFix ws₁), rankIn (orderFix ws₁) k ≤ r →
      k ∈ poNames (orderFix ws₂) ∧ rankIn (orderFix ws₂) k = rankIn (orderFix ws₁) k by
    intro k hk
    exact h (rankIn (orderFix ws₁) k) k hk le_rfl
  have hrank_pos : ∀ k ∈ poNames (orderFix ws₁), 1 ≤ rankIn (orderFix ws₁) k := by
    intro k hk
    obtain ⟨-, -, hrank⟩ := hg₁.2 _ (entry_of_mem_poNames hk)
    simp only at hrank
    omega
  intro r
  induction r with
  | zero =>
    intro k hk hle
    have := hrank_pos k hk
    omega
  | succ r ih =>
    intro k hk hle
    have hdeps : ∀ d ∈ depsOf ws₁ k, d ∈ poNames (orderFix ws₂) ∧
        rankIn (orderFix ws₂) d = rankIn (orderFix ws₁) d := by
      intro d hd
      have hdm : d ∈ poNames (orderFix ws₁) := good_deps_mem hg₁ hk hd
      have hdr : rankIn (orderFix ws₁) d < rankIn (orderFix ws₁) k :=
        rankIn_strict hg₁ hk hd
      exact ih d hdm (by omega)
    -- the entry of k in ws₂'s crate map
    have hkk : k ∈ wsKeys ws₁ := (hg₁.2 _ (entry_of_mem_poNames hk)).1
    obtain ⟨e, he, hek⟩ := List.mem_map.mp hkk
    have he₂ : e ∈ ws₂ := hperm.mem_iff.mp he
    have hdeq₁ : depsOf ws₁ k = e.2.deps_to_publish := hek ▸ depsOf_entry hnd₁ he
    have hmem₂ : k ∈ poNames (orderFix ws₂) := by
      rw [← hek]
      apply fix_complete hg₂.1 (orderFix_fix ws₂) he₂
      intro d hd
      exact (hdeps d (by rw [hdeq₁]; exact hd)).1
    refine ⟨hmem₂, ?_⟩
    obtain ⟨-, -, hrank₁⟩ := hg₁.2 _ (entry_of_mem_poNames hk)
    obtain ⟨-, -, hrank₂⟩ := hg₂.2 _ (entry_of_mem_poNames hmem₂)
    simp only at hrank₁ hrank₂
    rw [hrank₁, hrank₂]
    rw [← depsOf_perm hnd₁ hperm k]
    congr 1
    apply congrArg List.sum
    apply List.map_congr_left
    intro d hd
    exact (hdeps d (List.mem_dedup.mp hd)).2

theorem orderFix_perm {ws₁ ws₂ : Workspace} (hnd₁ : (wsKeys ws₁).Nodup)
    (hperm : ws₁.Perm ws₂) : (orderFix ws₁).Perm (orderFix ws₂) := by
  have hnd₂ : (wsKeys ws₂).Nodup := ((hperm.map Prod.fst).nodup_iff).mp hnd₁
  have hg₁ := orderFix_good hnd₁
  have hg₂ := orderFix_good hnd₂
  have hmem : ∀ {wsa wsb : Workspace}, (wsKeys wsa).Nodup → wsa.Perm wsb →
      ∀ oc : OrderedCrate, oc ∈ orderFix wsa → oc ∈ orderFix wsb := by
    intro wsa wsb hnda hpermab oc hoc
    have hga := orderFix_good hnda
    have hnm : oc.name ∈ poNames (orderFix wsa) := (mem_poNames _ _).mpr ⟨oc, hoc, rfl⟩
    obtain ⟨hmb, hrb⟩ := fix_transfer hnda hpermab oc.name hnm
    have hra : rankIn (orderFix wsa) oc.name = oc.rank := rankIn_of_mem hga.1 hoc
    have := entry_of_mem_poNames hmb
    rw [hrb, hra] at this
    cases oc
    exact this
  apply (List.perm_ext_iff_of_nodup ?_ ?_).mpr
  · intro oc
    exact ⟨hmem hnd₁ hperm oc, hmem hnd₂ hperm.symm oc⟩
  · exact hg₁.1.of_map
  · exact hg₂.1.of_map

theorem ordLe_antisymm (a b : OrderedCrate) (hab : ordLe a b = true)
    (hba : ordLe b a = true) : a = b := by
  simp only [ordLe, Bool.or_eq_true, Bool.and_eq_true, decide_eq_true_eq] at hab hba
  have hrank : a.rank = b.rank := by
    rcases hab with h1 | ⟨h1, -⟩ <;> rcases hba with h2 | ⟨h2, -⟩ <;> omega
  have hname : a.name = b.name := by
    rcases hab with h1 | ⟨-, h1⟩
    · omega
    · rcases hba with h2 | ⟨-, h2⟩
      · omega
      · exact nameLe_antisymm h1 h2
  cases a; cases b
  simp only at hrank hname
  rw [hrank, hname]

/-- C4: the publish-order resolver is deterministic.  Presenting the same
crate map in any other iteration order (any permutation of the
association list) yields the identical ordered name sequence, because the
set of orderable crates and each crate's rank depend only on the graph,
and the final sort's (rank, name) comparator is a linear order on the
entries. -/
theorem publish_order_deterministic (ws₁ ws₂ : Workspace)
    (hnd₁ : (wsKeys ws₁).Nodup) (hperm : ws₁.Perm ws₂) :
    publish_order ws₁ = publish_order ws₂ := by
  have hperm2 : ((orderFix ws₁).mergeSort ordLe).Perm ((orderFix ws₂).mergeSort ordLe) :=
    ((orderFix ws₁).mergeSort_perm ordLe).trans
      ((orderFix_perm hnd₁ hperm).trans ((orderFix ws₂).mergeSort_perm ordLe).symm)
  haveI : IsAntisymm OrderedCrate (fun a b => ordLe a b = true) := ⟨ordLe_antisymm⟩
  have hs₁ : List.Sorted (fun a b => ordLe a b = true) ((orderFix ws₁).mergeSort ordLe) :=
    List.sorted_mergeSort ordLe_trans ordLe_total (orderFix ws₁)
  have hs₂ : List.Sorted (fun a b => ordLe a b = true) ((orderFix ws₂).mergeSort ordLe) :=
    List.sorted_mergeSort ordLe_trans ordLe_total (orderFix ws₂)
  have : (orderFix ws₁).mergeSort ordLe = (orderFix ws₂).mergeSort ordLe :=
    List.eq_of_perm_of_sorted hperm2 hs₁ hs₂
  unfold publish_order
  rw [this]

/-- Witness for C4: `wsABC` against a rotation of its entries. -/
theorem publish_order_deterministic_witness :
    ((wsKeys wsABC).Nodup ∧ wsABC.Perm wsABCrot) ∧
      publish_order wsABC = publish_order wsABCrot :=
  ⟨⟨by decide, by decide⟩,
    publish_order_deterministic wsABC wsABCrot (by decide) (by decide)⟩

/-! ## Claim C5: the exclusion closure -/

theorem excl_insert_cases {ws : Workspace} {ec : String} {acc : List String}
    {krate : String} {res : List String}
    (h : excl_insert ws ec acc krate = Except.ok res) :
    res = acc ∨ (res = acc ++ [krate] ∧ krate ∉ acc) := by
  unfold excl_insert at h
  cases hl : lookupDetails ws krate with
  | none => rw [hl] at h; cases h
  | some det =>
    rw [hl] at h
    dsimp only at h
    by_cases hany : det.deps_to_publish.any (fun dep => dep = ec) = true
    · rw [if_pos hany] at h
      by_cases hmem : acc.any (fun x => x = krate) = true
      · rw [if_pos hmem] at h
        exact Or.inl (Except.ok.inj h).symm
      · rw [if_neg hmem] at h
        refine Or.inr ⟨(Except.ok.inj h).symm, ?_⟩
        intro hk
        exact hmem (List.any_eq_true.mpr ⟨krate, hk, by simp⟩)
    · rw [if_neg hany] at h
      exact Or.inl (Except.ok.inj h).symm

theorem excl_fold_append {ws : Workspace} {ec : String} :
    ∀ (po' acc res : List String),
      po'.foldlM (excl_insert ws ec) acc = Except.ok res →
      ∃ t, res = acc ++ t ∧ ∀ k ∈ t, k ∈ po' ∧ k ∉ acc := by
  intro po'
  induction po' with
  | nil =>
    intro acc res h
    rw [List.foldlM_nil] at h
    exact ⟨[], by simp [(Except.ok.inj h).symm], by simp⟩
  | cons k po'' ih =>
    intro acc res h
    rw [List.foldlM_cons] at h
    cases hstep : excl_insert ws ec acc k with
    | error e =>
      rw [hstep] at h
      cases h
    | ok acc1 =>
      rw [hstep] at h
      have h2 : List.foldlM (excl_insert ws ec) acc1 po'' = Except.ok res := h
      obtain ⟨t1, ht1, hmem1⟩ := ih acc1 res h2
      rcases excl_insert_cases hstep with hcase | ⟨hcase, hnm⟩
      · subst hcase
        refine ⟨t1, ht1, ?_⟩
        intro x hx
        obtain ⟨h3, h4⟩ := hmem1 x hx
        exact ⟨List.mem_cons_of_mem _ h3, h4⟩
      · subst hcase
        refine ⟨k :: t1, by simp [ht1], ?_⟩
        intro x hx
        rcases List.mem_cons.mp hx with heq | hx2
        · subst heq
          exact ⟨List.mem_cons_self _ _, hnm⟩
        · obtain ⟨h3, h4⟩ := hmem1 x hx2
          refine ⟨List.mem_cons_of_mem _ h3, ?_⟩
          intro hxa
          exact h4 (List.mem_append.mpr (Or.inl hxa))

theorem excl_pass_append {ws : Workspace} {po : List String} :
    ∀ (snap acc res : List String),
      excl_pass ws po snap acc = Except.ok res →
      ∃ t, res = acc ++ t ∧ ∀ k ∈ t, k ∈ po ∧ k ∉ acc := by
  intro snap
  induction snap with
  | nil =>
    intro acc res h
    unfold excl_pass at h
    rw [List.foldlM_nil] at h
    exact ⟨[], by simp [(Except.ok.inj h).symm], by simp⟩
  | cons ec snap' ih =>
    intro acc res h
    unfold excl_pass at h
    rw [List.foldlM_cons] at h
    cases hstep : po.foldlM (excl_insert ws ec) acc with
    | error e =>
      rw [hstep] at h
      cases h
    | ok acc1 =>
      rw [hstep] at h
      have h2 : excl_pass ws po snap' acc1 = Except.ok res := h
      obtain ⟨t0, ht0, hmem0⟩ := excl_fold_append po acc acc1 hstep
      obtain ⟨t1, ht1, hmem1⟩ := ih acc1 res h2
      refine ⟨t0 ++ t1, by rw [ht1, ht0, List.append_assoc], ?_⟩
      intro x hx
      rcases List.mem_append.mp hx with hx0 | hx1
      · exact hmem0 x hx0
      · obtain ⟨h3, h4⟩ := hmem1 x hx1
        refine ⟨h3, ?_⟩
        intro hxa
        exact h4 (ht0 ▸ List.mem_append.mpr (Or.inl hxa))

theorem excl_fold_nodup {ws : Workspace} {ec : String} :
    ∀ (po' acc res : List String), acc.Nodup →
      po'.foldlM (excl_insert ws ec) acc = Except.ok res → res.Nodup := by
  intro po'
  induction po' with
  | nil =>
    intro acc res hnd h
    rw [List.foldlM_nil] at h
    rw [← Except.ok.inj h]
    exact hnd
  | cons k po'' ih =>
    intro acc res hnd h
    rw [List.foldlM_cons] at h
    cases hstep : excl_insert ws ec acc k with
    | error e => rw [hstep] at h; cases h
    | ok acc1 =>
      rw [hstep] at h
      have h2 : List.foldlM (excl_insert ws ec) acc1 po'' = Except.ok res := h
      apply ih acc1 res ?_ h2
      rcases excl_insert_cases hstep with hcase | ⟨hcase, hnm⟩
      · exact hcase ▸ hnd
      · subst hcase
        rw [List.nodup_append]
        exact ⟨hnd, List.nodup_singleton _, by
          intro a ha hb
          rw [List.mem_singleton] at hb
          subst hb
          exact hnm ha⟩

theorem excl_pass_nodup {ws : Workspace} {po : List String} :
    ∀ (snap acc res : List String), acc.Nodup →
      excl_pass ws po snap acc = Except.ok res → res.Nodup := by
  intro snap
  induction snap with
  | nil =>
    intro acc res hnd h
    unfold excl_pass at h
    rw [List.foldlM_nil] at h
    rw [← Except.ok.inj h]
    exact hnd
  | cons ec snap' ih =>
    intro acc res hnd h
    unfold excl_pass at h
    rw [List.foldlM_cons] at h
    cases hstep : po.foldlM (excl_insert ws ec) acc with
    | error e => rw [hstep] at h; cases h
    | ok acc1 =>
      rw [hstep] at h
      exact ih acc1 res (excl_fold_nodup po acc acc1 hnd hstep) h

theorem excl_fold_fix {ws : Workspace} {ec : String} :
    ∀ (po' res : List String), po'.foldlM (excl_insert ws ec) res = Except.ok res →
      ∀ k ∈ po', ec ∈ depsOf ws k → k ∈ res := by
  intro po'
  induction po' with
  | nil => intro res _ k hk; cases hk
  | cons k po'' ih =>
    intro res h
    rw [List.foldlM_cons] at h
    cases hstep : excl_insert ws ec res k with
    | error e => rw [hstep] at h; cases h
    | ok acc1 =>
      rw [hstep] at h
      have h2 : List.foldlM (excl_insert ws ec) acc1 po'' = Except.ok res := h
      -- append-only forces acc1 = res
      have hacc1 : acc1 = res := by
        obtain ⟨t1, ht1, -⟩ := excl_fold_append po'' acc1 res h2
        rcases excl_insert_cases hstep with hcase | ⟨hcase, -⟩
        · exact hcase
        · exfalso
          rw [hcase, List.append_assoc] at ht1
          have := congrArg List.length ht1
          rw [List.length_append] at this
          simp at this
      rw [hacc1] at hstep h2
      intro k' hk' hdep
      rcases List.mem_cons.mp hk' with heq | hk2
      · subst heq
        unfold excl_insert at hstep
        cases hl : lookupDetails ws k' with
        | none => rw [hl] at hstep; cases hstep
        | some det =>
          rw [hl] at hstep
          dsimp only at hstep
          have hdep2 : det.deps_to_publish.any (fun dep => dep = ec) = true := by
            apply List.any_eq_true.mpr
            refine ⟨ec, ?_, by simp⟩
            simpa [depsOf, hl] using hdep
          rw [if_pos hdep2] at hstep
          by_cases hmem : res.any (fun x => x = k') = true
          · obtain ⟨x, hx, hxeq⟩ := List.any_eq_true.mp hmem
            have : x = k' := of_decide_eq_true hxeq
            exact this ▸ hx
          · exfalso
            rw [if_neg hmem] at hstep
            have := congrArg List.length (Except.ok.inj hstep)
            rw [List.length_append] at this
            simp at this
      · exact ih res h2 k' hk2 hdep

theorem excl_pass_fix {ws : Workspace} {po : List String} :
    ∀ (snap res : List String), excl_pass ws po snap res = Except.ok res →
      ∀ ec ∈ snap, ∀ k ∈ po, ec ∈ depsOf ws k → k ∈ res := by
  intro snap
  induction snap with
  | nil => intro res _ ec hec; cases hec
  | cons ec0 snap' ih =>
    intro res h
    unfold excl_pass at h
    rw [List.foldlM_cons] at h
    cases hstep : po.foldlM (excl_insert ws ec0) res with
    | error e => rw [hstep] at h; cases h
    | ok acc1 =>
      rw [hstep] at h
      have h2 : excl_pass ws po snap' acc1 = Except.ok res := h
      have hacc1 : acc1 = res := by
        obtain ⟨t0, ht0, -⟩ := excl_fold_append po res acc1 hstep
        obtain ⟨t1, ht1, -⟩ := excl_pass_append snap' acc1 res h2
        rw [ht0, List.append_assoc] at ht1
        have := congrArg List.length ht1
        rw [List.length_append, List.length_append] at this
        have ht0nil : t0 = [] := List.length_eq_zero.mp (by omega)
        rw [ht0, ht0nil]
        simp
      rw [hacc1] at hstep h2
      intro ec hec k hk hdep
      rcases List.mem_cons.mp hec with heq | hec2
      · subst heq
        exact excl_fold_fix po res hstep k hk hdep
      · exact ih res h2 ec hec2 k hk hdep

theorem filter_not_any_length_lt {base acc t : List String}
    (hne : t ≠ []) (ht : ∀ k ∈ t, k ∈ base ∧ k ∉ acc) :
    (base.dedup.filter (fun k => !((acc ++ t).any (fun n => n = k)))).length
      < (base.dedup.filter (fun k => !(acc.any (fun n => n = k)))).length := by
  set p := fun k => !(acc.any (fun n => n = k)) with hp
  set q := fun k => !((acc ++ t).any (fun n => n = k)) with hq
  have hqp : ∀ k, q k = true → p k = true := by
    intro k hk
    simp only [hq, Bool.not_eq_true', List.any_eq_false] at hk
    simp only [hp, Bool.not_eq_true', List.any_eq_false]
    intro n hn
    exact hk n (List.mem_append.mpr (Or.inl hn))
  have hsub : List.Sublist (List.filter q base.dedup) (List.filter p base.dedup) := by
    have heq : List.filter q base.dedup = List.filter q (List.filter p base.dedup) := by
      rw [List.filter_filter]
      apply List.filter_congr
      intro x _
      cases hqx : q x with
      | true => simp [hqx, hqp x hqx]
      | false => simp [hqx]
    rw [heq]
    exact List.filter_sublist _
  obtain ⟨a, ha⟩ := List.exists_mem_of_ne_nil t hne
  obtain ⟨hak, han⟩ := ht a ha
  have had : a ∈ base.dedup := List.mem_dedup.mpr hak
  have hpa : p a = true := by
    simp only [hp, Bool.not_eq_true', List.any_eq_false]
    intro n hn
    simp only [decide_eq_true_eq]
    intro heq
    exact han (heq ▸ hn)
  have hqa : q a = false := by
    have hany : ((acc ++ t).any (fun n => n = a)) = true :=
      List.any_eq_true.mpr ⟨a, List.mem_append.mpr (Or.inr ha), by simp⟩
    have hbeta : q a = !((acc ++ t).any (fun n => n = a)) := rfl
    rw [hbeta, hany]
    rfl
  have hmemp : a ∈ List.filter p base.dedup := List.mem_filter.mpr ⟨had, hpa⟩
  have hmemq : a ∉ List.filter q base.dedup := by
    intro hmem
    have := (List.mem_filter.mp hmem).2
    rw [hqa] at this
    exact Bool.false_ne_true this
  have hle := hsub.length_le
  rcases Nat.lt_or_ge (List.filter q base.dedup).length
      (List.filter p base.dedup).length with hlt | hge
  · exact hlt
  · exfalso
    have heq : List.filter q base.dedup = List.filter p base.dedup :=
      hsub.eq_of_length (Nat.le_antisymm hle hge)
    rw [heq] at hmemq
    exact hmemq hmemp

theorem excl_loop_spec (ws : Workspace) (po : List String) :
    ∀ (fuel : Nat) (acc res : List String),
      (po.dedup.filter (fun k => !(acc.any (fun n => n = k)))).length < fuel →
      excl_loop ws po fuel acc = Except.ok res →
      excl_pass ws po res res = Except.ok res ∧ ∃ t, res = acc ++ t := by
  intro fuel
  induction fuel with
  | zero => intro acc res h; omega
  | succ fuel ih =>
    intro acc res hfuel h
    unfold excl_loop at h
    cases hp : excl_pass ws po acc acc with
    | error e => rw [hp] at h; cases h
    | ok acc2 =>
      rw [hp] at h
      have h2 : (if acc2.length = acc.length then Except.ok acc2
          else excl_loop ws po fuel acc2) = Except.ok res := h
      obtain ⟨t, ht, hmem⟩ := excl_pass_append acc acc acc2 hp
      by_cases hlen : acc2.length = acc.length
      · have htnil : t = [] := by
          have := congrArg List.length ht
          rw [List.length_append] at this
          exact List.length_eq_zero.mp (by omega)
        have hacc2 : acc2 = acc := by rw [ht, htnil]; simp
        rw [if_pos hlen] at h2
        have hres : res = acc2 := (Except.ok.inj h2).symm
        subst hres
        rw [hacc2] at hp ⊢
        exact ⟨hp, [], by simp⟩
      · rw [if_neg hlen] at h2
        have htne : t ≠ [] := by
          intro h0
          rw [h0] at ht
          simp at ht
          exact hlen (by rw [ht])
        have hlt := filter_not_any_length_lt htne hmem
        rw [← ht] at hlt
        obtain ⟨hfix, t2, ht2⟩ := ih acc2 res (by omega) h2
        exact ⟨hfix, t ++ t2, by rw [ht2, ht, List.append_assoc]⟩

theorem crates_to_exclude_spec {ws : Workspace} {po ex res : List String}
    (hok : crates_to_exclude ws po ex = Except.ok res) :
    excl_pass ws po res res = Except.ok res ∧
      (∃ t, res = ex.dedup ++ t) ∧ res.Nodup := by
  unfold crates_to_exclude at hok
  have hfuel : (po.dedup.filter
      (fun k => !(ex.dedup.any (fun n => n = k)))).length < po.length + 1 := by
    have h1 : (po.dedup.filter
        (fun k => !(ex.dedup.any (fun n => n = k)))).length ≤ po.dedup.length :=
      List.length_filter_le _ _
    have h2 : po.dedup.length ≤ po.length := (List.dedup_sublist _).length_le
    omega
  obtain ⟨hfix, t, ht⟩ := excl_loop_spec ws po (po.length + 1) ex.dedup res hfuel hok
  refine ⟨hfix, ⟨t, ht⟩, ?_⟩
  -- Nodup: by induction over the loop
  clear hfix ht t
  have : ∀ (fuel : Nat) (acc r : List String), acc.Nodup →
      excl_loop ws po fuel acc = Except.ok r → r.Nodup := by
    intro fuel
    induction fuel with
    | zero =>
      intro acc r hnd h
      unfold excl_loop at h
      rw [← Except.ok.inj h]
      exact hnd
    | succ fuel ih =>
      intro acc r hnd h
      unfold excl_loop at h
      cases hp : excl_pass ws po acc acc with
      | error e => rw [hp] at h; cases h
      | ok acc2 =>
        rw [hp] at h
        have h2 : (if acc2.length = acc.length then Except.ok acc2
            else excl_loop ws po fuel acc2) = Except.ok r := h
        have hnd2 : acc2.Nodup := excl_pass_nodup acc acc acc2 hnd hp
        by_cases hlen : acc2.length = acc.length
        · rw [if_pos hlen] at h2
          rw [← Except.ok.inj h2]
          exact hnd2
        · rw [if_neg hlen] at h2
          exact ih acc2 r hnd2 h2
  exact this (po.length + 1) ex.dedup res (List.nodup_dedup _) hok

/-- `mergeSort` is opaque to evaluation (well-founded recursion), but its
result is the unique sorted permutation, which lets concrete publish
orders be computed. -/
theorem mergeSort_eq_of (l r : List OrderedCrate) (hperm : l.Perm r)
    (hsort : List.Pairwise (fun a b => ordLe a b = true) r) :
    l.mergeSort ordLe = r := by
  haveI : IsAntisymm OrderedCrate (fun a b => ordLe a b = true) := ⟨ordLe_antisymm⟩
  exact List.eq_of_perm_of_sorted ((l.mergeSort_perm ordLe).trans hperm)
    (List.sorted_mergeSort ordLe_trans ordLe_total l) hsort

theorem publish_order_eq_of {ws : Workspace} {r : List OrderedCrate}
    (hperm : (orderFix ws).Perm r)
    (hsort : List.Pairwise (fun a b => ordLe a b = true) r) :
    publish_order ws = r.map OrderedCrate.name := by
  unfold publish_order
  rw [mergeSort_eq_of _ r hperm hsort]

theorem publish_order_wsLegacy :
    publish_order wsLegacy = ["legacy", "other", "modern"] := by
  have h := @publish_order_eq_of wsLegacy
    [⟨"legacy", 1⟩, ⟨"other", 1⟩, ⟨"modern", 2⟩] (by decide) (by decide)
  simpa using h

/-- C5: the exclusion closure contains every publish-order crate that
reaches an explicitly excluded crate through `dependencies_to_publish`
edges; the closure computation is idempotent (running it on its own output
returns that output unchanged); and on the spec's example — all crates
requested, `legacy` excluded, `modern` depending on `legacy` — the
resulting plan contains neither `legacy` nor `modern`. -/
theorem exclusion_closure_spec (ws : Workspace) (po ex res : List String)
    (hok : crates_to_exclude ws po ex = Except.ok res) :
    (∀ k ∈ po, ReachesExcluded ws po ex k → k ∈ res) ∧
    crates_to_exclude ws po res = Except.ok res ∧
    (crates_to_exclude wsLegacy (publish_order wsLegacy) ["legacy"]
        = Except.ok ["legacy", "modern"] ∧
      input_crates_all wsLegacy (publish_order wsLegacy) ["legacy", "modern"] none
        = Except.ok ["other"] ∧
      "legacy" ∉ selected_crates_fn none ["legacy", "modern"] ["other"] ∧
      "modern" ∉ selected_crates_fn none ["legacy", "modern"] ["other"]) := by
  obtain ⟨hfix, ⟨t, ht⟩, hnd⟩ := crates_to_exclude_spec hok
  have hbase : ∀ e ∈ ex, e ∈ res := by
    intro e he
    rw [ht]
    exact List.mem_append.mpr (Or.inl (List.mem_dedup.mpr he))
  have hstepf : ∀ ec ∈ res, ∀ k ∈ po, ec ∈ depsOf ws k → k ∈ res :=
    excl_pass_fix res res hfix
  refine ⟨?_, ?_, by rw [publish_order_wsLegacy]; rfl,
    by rw [publish_order_wsLegacy]; rfl, by decide, by decide⟩
  · have main : ∀ k, ReachesExcluded ws po ex k → k ∈ po → k ∈ res := by
      intro k hreach
      induction hreach with
      | direct k' e he hdep =>
        intro hk'
        exact hstepf e (hbase e he) k' hk' hdep
      | step k' m hmpo hdep _ ih =>
        intro hk'
        exact hstepf m (ih hmpo) k' hk' hdep
    intro k hk hreach
    exact main k hreach hk
  · unfold crates_to_exclude
    rw [List.Nodup.dedup hnd]
    unfold excl_loop
    rw [hfix]
    have h2 : ((if res.length = res.length then Except.ok res
        else excl_loop ws po po.length res) : Except String (List String))
        = Except.ok res := by rw [if_pos rfl]
    exact h2

/-- Witness for C5 at the `legacy`/`modern`/`other` workspace. -/
theorem exclusion_closure_spec_witness :
    crates_to_exclude wsLegacy (publish_order wsLegacy) ["legacy"]
      = Except.ok ["legacy", "modern"] ∧
    ((∀ k ∈ publish_order wsLegacy,
        ReachesExcluded wsLegacy (publish_order wsLegacy) ["legacy"] k →
          k ∈ ["legacy", "modern"]) ∧
      crates_to_exclude wsLegacy (publish_order wsLegacy) ["legacy", "modern"]
        = Except.ok ["legacy", "modern"] ∧
      (crates_to_exclude wsLegacy (publish_order wsLegacy) ["legacy"]
          = Except.ok ["legacy", "modern"] ∧
        input_crates_all wsLegacy (publish_order wsLegacy) ["legacy", "modern"] none
          = Except.ok ["other"] ∧
        "legacy" ∉ selected_crates_fn none ["legacy", "modern"] ["other"] ∧
        "modern" ∉ selected_crates_fn none ["legacy", "modern"] ["other"])) :=
  ⟨by rw [publish_order_wsLegacy]; rfl,
    exclusion_closure_spec wsLegacy (publish_order wsLegacy) ["legacy"]
      ["legacy", "modern"] (by rw [publish_order_wsLegacy]; rfl)⟩

/-! ## Claim C6: the Dependency Validator -/

/-- C6: the validator's depth-first walk fails at any not-yet-visited node
that is in the exclusion set, with an error naming that node, its
immediate parent in the walk (absent exactly when the validator recursed
from the initially selected crate itself), and the initial crate; on the
graph `A -> B -> C` with `C` excluded, validating `A` reports `C`
excluded, `B` as parent, `A` as the initial crate. -/
theorem validator_excluded_spec :
    (∀ (ws : Workspace) (excluded_crates visited : List String) (fuel : Nat)
      (initial_crate : String) (parent_crate : Option String) (krate : String),
      visited.any (fun visited_crate => visited_crate = krate) = false →
      excluded_crates.any (fun excluded_crate => excluded_crate = krate) = true →
      validate_crates ws excluded_crates (fuel + 1) initial_crate parent_crate krate visited
        = Except.error (ValidationError.excludedDep krate parent_crate initial_crate)) ∧
    validateAll wsValidator ["C"] ["A"]
      = Except.error (ValidationError.excludedDep "C" (some "B") "A") := by
  constructor
  · intro ws excl visited fuel initial parent krate hvis hexc
    simp [validate_crates, hvis, hexc]
  · rfl

/-- Witness for C6: the general branch applied at node `C`, parent `B`,
initial crate `A`. -/
theorem validator_excluded_spec_witness :
    ((["B"] : List String).any (fun visited_crate => visited_crate = "C") = false ∧
      (["C"] : List String).any (fun excluded_crate => excluded_crate = "C") = true) ∧
    validate_crates wsValidator ["C"] 1 "A" (some "B") "C" ["B"]
      = Except.error (ValidationError.excludedDep "C" (some "B") "A") :=
  ⟨⟨by decide, by decide⟩,
    validator_excluded_spec.1 wsValidator ["C"] ["B"] 0 "A" (some "B") "C"
      (by decide) (by decide)⟩

/-! ## Claims C8 and C10: start-from slicing and selection -/

theorem slice_keep {sf : String} {excl : List String} :
    ∀ (l acc : List String), sf ∉ l →
      l.foldl (sliceStep sf excl) (acc, true) = (acc ++ l, true) := by
  intro l
  induction l with
  | nil => intro acc _; simp
  | cons k rest ih =>
    intro acc hnm
    have hk : ¬(k = sf) := fun heq => hnm (heq ▸ List.mem_cons_self _ _)
    rw [List.foldl_cons]
    have hstep : sliceStep sf excl (acc, true) k = (acc ++ [k], true) := by
      simp [sliceStep, hk]
    rw [hstep, ih (acc ++ [k]) (fun hmem => hnm (List.mem_cons_of_mem _ hmem))]
    simp

theorem selected_slice_eq (sf : String) (excl input : List String)
    (hnd : input.Nodup) (hmem : sf ∈ input) :
    selected_crates_fn (some sf) excl input =
      (if excl.any (fun excluded_crate => excluded_crate = sf) then
        (input.dropWhile (fun krate => !(krate = sf))).tail
      else input.dropWhile (fun krate => !(krate = sf))) := by
  unfold selected_crates_fn
  dsimp only
  induction input with
  | nil => cases hmem
  | cons k rest ih =>
    rcases List.mem_cons.mp hmem with heq | hmem2
    · have hksf : k = sf := heq.symm
      subst hksf
      have hnin : k ∉ rest := (List.nodup_cons.mp hnd).1
      have hdw : (k :: rest).dropWhile (fun krate => !(krate = k)) = k :: rest := by
        rw [List.dropWhile_cons]
        simp
      rw [hdw]
      by_cases hexc : excl.any (fun excluded_crate => excluded_crate = k) = true
      · have hstep : sliceStep k excl ([], false) k = ([], true) := by
          simp [sliceStep, hexc]
        rw [List.foldl_cons, hstep, slice_keep rest [] hnin]
        simp [hexc]
      · have hexc' : excl.any (fun excluded_crate => excluded_crate = k) = false :=
          Bool.not_eq_true _ ▸ (by simpa using hexc)
        have hstep : sliceStep k excl ([], false) k = ([k], true) := by
          simp [sliceStep, hexc']
        rw [List.foldl_cons, hstep, slice_keep rest [k] hnin]
        simp [hexc']
    · have hk : ¬(k = sf) := by
        intro heq
        exact (List.nodup_cons.mp hnd).1 (heq ▸ hmem2)
      have hstep : sliceStep sf excl ([], false) k = ([], false) := by
        simp [sliceStep, hk]
      rw [List.foldl_cons, hstep]
      have hdw : (k :: rest).dropWhile (fun krate => !(krate = sf))
          = rest.dropWhile (fun krate => !(krate = sf)) := by
        rw [List.dropWhile_cons]
        simp [hk]
      rw [hdw]
      exact ih (List.nodup_cons.mp hnd).2 hmem2

/-- C8: with a start-from crate present in the (duplicate-free) inclusion
sequence, the selection plan is that sequence with everything before the
start-from crate dropped; the start-from crate itself is additionally
dropped at this step exactly when it is in the exclusion set, and the
crates after it are kept either way. -/
theorem start_from_slicing (sf : String) (excl input : List String)
    (hnd : input.Nodup) (hmem : sf ∈ input) :
    selected_crates_fn (some sf) excl input =
      (if excl.any (fun excluded_crate => excluded_crate = sf) then
        (input.dropWhile (fun krate => !(krate = sf))).tail
      else input.dropWhile (fun krate => !(krate = sf))) :=
  selected_slice_eq sf excl input hnd hmem

/-- Witness for C8: slicing `[a, b, c]` from `b`, with `b` excluded and
not excluded. -/
theorem start_from_slicing_witness :
    ((["a", "b", "c"] : List String).Nodup ∧ "b" ∈ (["a", "b", "c"] : List String)) ∧
    selected_crates_fn (some "b") ["b"] ["a", "b", "c"] =
      (if (["b"] : List String).any (fun excluded_crate => excluded_crate = "b") then
        ((["a", "b", "c"] : List String).dropWhile (fun krate => !(krate = "b"))).tail
      else (["a", "b", "c"] : List String).dropWhile (fun krate => !(krate = "b"))) :=
  ⟨⟨by decide, by decide⟩,
    start_from_slicing "b" ["b"] ["a", "b", "c"] (by decide) (by decide)⟩

theorem input_fold_sublist {ws : Workspace} {excl : List String} {sf : Option String} :
    ∀ (po acc res : List String),
      po.foldlM (input_step ws excl sf) acc = Except.ok res →
      ∃ t, res = acc ++ t ∧ List.Sublist t po := by
  intro po
  induction po with
  | nil =>
    intro acc res h
    rw [List.foldlM_nil] at h
    exact ⟨[], by simp [(Except.ok.inj h).symm], List.nil_sublist _⟩
  | cons k po' ih =>
    intro acc res h
    rw [List.foldlM_cons] at h
    cases hstep : input_step ws excl sf acc k with
    | error e => rw [hstep] at h; cases h
    | ok acc1 =>
      rw [hstep] at h
      have h2 : List.foldlM (input_step ws excl sf) acc1 po' = Except.ok res := h
      obtain ⟨t, ht, hsub⟩ := ih acc1 res h2
      have hcases : acc1 = acc ∨ acc1 = acc ++ [k] := by
        unfold input_step at hstep
        by_cases h1 : sf = some k
        · rw [if_pos h1] at hstep
          exact Or.inr (Except.ok.inj hstep).symm
        · rw [if_neg h1] at hstep
          by_cases h2e : excl.any (fun excluded_crate => excluded_crate = k) = true
          · rw [if_pos h2e] at hstep
            exact Or.inl (Except.ok.inj hstep).symm
          · rw [if_neg h2e] at hstep
            cases hl : lookupDetails ws k with
            | none => rw [hl] at hstep; cases hstep
            | some det =>
              rw [hl] at hstep
              dsimp only at hstep
              by_cases hp : det.should_be_published = true
              · rw [if_pos hp] at hstep
                exact Or.inr (Except.ok.inj hstep).symm
              · rw [if_neg hp] at hstep
                exact Or.inl (Except.ok.inj hstep).symm
      rcases hcases with hc | hc
      · subst hc
        exact ⟨t, ht, hsub.cons _⟩
      · subst hc
        rw [List.append_assoc] at ht
        exact ⟨k :: t, ht, hsub.cons₂ _⟩

theorem input_all_start_mem {ws : Workspace} {excl : List String} {s : String} :
    ∀ (po acc res : List String), s ∈ po →
      po.foldlM (input_step ws excl (some s)) acc = Except.ok res → s ∈ res := by
  intro po
  induction po with
  | nil => intro acc res h; cases h
  | cons k po' ih =>
    intro acc res hmem h
    rw [List.foldlM_cons] at h
    cases hstep : input_step ws excl (some s) acc k with
    | error e => rw [hstep] at h; cases h
    | ok acc1 =>
      rw [hstep] at h
      have h2 : List.foldlM (input_step ws excl (some s)) acc1 po' = Except.ok res := h
      rcases List.mem_cons.mp hmem with heq | hmem2
      · subst heq
        have hacc1 : acc1 = acc ++ [s] := by
          unfold input_step at hstep
          rw [if_pos rfl] at hstep
          exact (Except.ok.inj hstep).symm
        obtain ⟨t, ht, -⟩ := input_fold_sublist po' acc1 res h2
        rw [ht, hacc1]
        simp
      · exact ih acc1 res hmem2 h2

theorem mem_dropWhile_ne {s : String} :
    ∀ (l : List String), s ∈ l → s ∈ l.dropWhile (fun krate => !(krate = s)) := by
  intro l
  induction l with
  | nil => intro h; cases h
  | cons k l' ih =>
    intro hmem
    rw [List.dropWhile_cons]
    by_cases hk : k = s
    · subst hk
      simp
    · simp only [hk, decide_False, Bool.not_false, if_true]
      rcases List.mem_cons.mp hmem with heq | hmem2
      · exact absurd heq.symm hk
      · exact ih hmem2

/-- C10: with an empty requested list and a given start-from crate, the
start-from crate enters the base inclusion set before the exclusion and
publishable checks (so it is included even when excluded or marked
not-publishable), and — when it is not in the exclusion closure — it
survives the slicing step into the final plan, its publishable flag never
being re-checked. -/
theorem start_from_before_checks (ws : Workspace) (po excl : List String)
    (s : String) (res : List String) (hnd : po.Nodup) (hs : s ∈ po)
    (hok : input_crates_all ws po excl (some s) = Except.ok res) :
    s ∈ res ∧
      (excl.any (fun excluded_crate => excluded_crate = s) = false →
        s ∈ selected_crates_fn (some s) excl res) := by
  unfold input_crates_all at hok
  have hmem : s ∈ res := input_all_start_mem po [] res hs hok
  refine ⟨hmem, ?_⟩
  intro hexc
  obtain ⟨t, ht, hsub⟩ := input_fold_sublist po [] res hok
  have hres_nd : res.Nodup := by
    rw [ht]
    simpa using hsub.nodup hnd
  rw [selected_slice_eq s excl res hres_nd hmem, if_neg (by simp [hexc])]
  exact mem_dropWhile_ne res hmem

/-- Witness for C10: `s` is unpublishable yet selected as the start-from
crate. -/
theorem start_from_before_checks_witness :
    ((["s", "t"] : List String).Nodup ∧ "s" ∈ (["s", "t"] : List String) ∧
      input_crates_all wsStartFrom ["s", "t"] ["q"] (some "s")
        = Except.ok ["s", "t"] ∧
      (lookupDetails wsStartFrom "s").map CrateDetails.should_be_published
        = some false) ∧
    ("s" ∈ (["s", "t"] : List String) ∧
      ((["q"] : List String).any (fun excluded_crate => excluded_crate = "s") = false →
        "s" ∈ selected_crates_fn (some "s") ["q"] ["s", "t"])) :=
  ⟨⟨by decide, by decide, by rfl, by rfl⟩,
    start_from_before_checks wsStartFrom ["s", "t"] ["q"] "s" ["s", "t"]
      (by decide) (by decide) (by rfl)⟩

/-! ## Claims C2 and C7: the Checkpoint Transaction Manager -/

theorem revert_stop {α : Type} {s : GitState α}
    (h : ¬ s.headCommit.msg = CHECKPOINT_REVERT) :
    git_checkpoint_revert s = Except.ok s := by
  unfold git_checkpoint_revert
  rw [if_neg h]

theorem revert_pop {α : Type} {init c : GCommit α} {cs : List (GCommit α)} {w : α}
    (hc : c.msg = CHECKPOINT_REVERT) :
    git_checkpoint_revert (⟨init, c :: cs, w⟩ : GitState α)
      = git_checkpoint_revert ⟨init, cs, (cs.headD init).tree⟩ := by
  conv_lhs => unfold git_checkpoint_revert
  rw [if_pos (show (⟨init, c :: cs, w⟩ : GitState α).headCommit.msg
    = CHECKPOINT_REVERT from hc)]

theorem unwound_nil {α : Type} (init : GCommit α) (w : α) :
    unwound (⟨init, [], w⟩ : GitState α) = ⟨init, [], w⟩ := by
  unfold unwound
  simp

theorem unwound_no_revert {α : Type} {init c : GCommit α} {cs : List (GCommit α)} {w : α}
    (hc : ¬ c.msg = CHECKPOINT_REVERT) :
    unwound (⟨init, c :: cs, w⟩ : GitState α) = ⟨init, c :: cs, w⟩ := by
  have hdwc : List.dropWhile (fun c2 => c2.msg = CHECKPOINT_REVERT) (c :: cs) = c :: cs := by
    rw [List.dropWhile_cons, if_neg (by simp [hc])]
  unfold unwound
  dsimp only
  rw [hdwc, if_pos rfl]

theorem unwound_cons_revert {α : Type} {init c : GCommit α} {cs : List (GCommit α)} {w : α}
    (hc : c.msg = CHECKPOINT_REVERT) :
    unwound (⟨init, c :: cs, w⟩ : GitState α)
      = unwound ⟨init, cs, (cs.headD init).tree⟩ := by
  have hdwc : List.dropWhile (fun c2 => c2.msg = CHECKPOINT_REVERT) (c :: cs)
      = List.dropWhile (fun c2 => c2.msg = CHECKPOINT_REVERT) cs := by
    rw [List.dropWhile_cons, if_pos (by simp [hc])]
  have hsub : List.Sublist
      (cs.dropWhile (fun c2 => c2.msg = CHECKPOINT_REVERT)) cs :=
    List.dropWhile_sublist _
  have hlen : (cs.dropWhile (fun c2 => c2.msg = CHECKPOINT_REVERT)).length
      ≤ cs.length := hsub.length_le
  unfold unwound
  dsimp only
  rw [hdwc]
  rw [if_neg (show ¬ (cs.dropWhile (fun c2 => c2.msg = CHECKPOINT_REVERT)).length
      = (c :: cs).length by simp only [List.length_cons]; omega)]
  by_cases heq : (cs.dropWhile (fun c2 => c2.msg = CHECKPOINT_REVERT)).length = cs.length
  · rw [if_pos heq, hsub.eq_of_length heq]
  · rw [if_neg heq]

theorem revert_unwinds_aux {α : Type} :
    ∀ (cs : List (GCommit α)) (init : GCommit α) (w : α),
      init.msg ≠ CHECKPOINT_REVERT →
      git_checkpoint_revert ⟨init, cs, w⟩ = Except.ok (unwound ⟨init, cs, w⟩) := by
  intro cs
  induction cs with
  | nil =>
    intro init w hinit
    have hh : ¬ (⟨init, [], w⟩ : GitState α).headCommit.msg = CHECKPOINT_REVERT := hinit
    rw [revert_stop hh, unwound_nil]
  | cons c cs' ih =>
    intro init w hinit
    by_cases hc : c.msg = CHECKPOINT_REVERT
    · rw [revert_pop hc, ih init (cs'.headD init).tree hinit, unwound_cons_revert hc]
    · have hh : ¬ (⟨init, c :: cs', w⟩ : GitState α).headCommit.msg = CHECKPOINT_REVERT := hc
      rw [revert_stop hh, unwound_no_revert hc]

theorem revert_unwinds {α : Type} (s : GitState α)
    (hinit : s.initialCommit.msg ≠ CHECKPOINT_REVERT) :
    git_checkpoint_revert s = Except.ok (unwound s) := by
  cases s with
  | mk init cs w => exact revert_unwinds_aux cs init w hinit

theorem git_checkpoint_clean {α : Type} [DecidableEq α] {s : GitState α}
    (h : s.isDirty = false) (op : GitCheckpoint) : git_checkpoint s op = s := by
  simp [git_checkpoint, h]

theorem git_checkpoint_dirty {α : Type} [DecidableEq α] {s : GitState α}
    (h : s.isDirty = true) (op : GitCheckpoint) :
    git_checkpoint s op
      = { s with commits := ⟨commitMsg op, s.worktree⟩ :: s.commits } := by
  simp [git_checkpoint, h]

theorem save_ne_revert : CHECKPOINT_SAVE ≠ CHECKPOINT_REVERT := by decide

/-- C2 (counterexample to the claim as stated): on a clean tree whose head
commit is a leftover RevertLater checkpoint, `with_checkpoint(RevertLater,
id)` makes no commit, and the following `revert()` pops the leftover
commit, leaving the working tree different from its state immediately
before the call. -/
theorem with_revert_not_restoring :
    git_checkpoint_revert
        (with_git_checkpoint gsLeftover GitCheckpoint.RevertLater (fun t => t))
      = Except.ok (⟨⟨"initial commit", 0⟩, [], 0⟩ : GitState Nat) ∧
    (0 : Nat) ≠ gsLeftover.worktree := by
  constructor
  · have h1 : with_git_checkpoint gsLeftover GitCheckpoint.RevertLater (fun t => t)
        = gsLeftover := rfl
    rw [h1, revert_unwinds gsLeftover (by decide)]
    rfl
  · decide

/-- C2 (amended): `with_checkpoint(RevertLater, f)` followed by `revert()`
restores the working tree to its state immediately before the call, for
every action `f` — including one making no change — and for every prior
state whose head commit is not a leftover RevertLater checkpoint (a dirty
tree lifts even that proviso, since the pre-action Save checkpoint then
protects the state); and `revert()` unwinds precisely the contiguous
suffix of RevertLater-tagged commits, stopping at the first commit that is
not RevertLater — succeeding even when no RevertLater commit exists —
whenever the unwinding cannot reach the root commit. -/
theorem with_revert_restores {α : Type} [DecidableEq α] (s₀ : GitState α) (f : α → α)
    (h : s₀.headCommit.msg ≠ CHECKPOINT_REVERT ∨ s₀.isDirty = true) :
    (∃ s', git_checkpoint_revert (with_git_checkpoint s₀ GitCheckpoint.RevertLater f)
        = Except.ok s' ∧ s'.worktree = s₀.worktree) ∧
    (∀ s : GitState α, s.initialCommit.msg ≠ CHECKPOINT_REVERT →
      git_checkpoint_revert s = Except.ok (unwound s)) := by
  refine ⟨?_, fun s hs => revert_unwinds s hs⟩
  have hwith : with_git_checkpoint s₀ GitCheckpoint.RevertLater f
      = git_checkpoint
          { git_checkpoint s₀ GitCheckpoint.Save with
            worktree := f (git_checkpoint s₀ GitCheckpoint.Save).worktree }
          GitCheckpoint.RevertLater := by
    simp only [with_git_checkpoint]
    rfl
  cases hd : s₀.isDirty with
  | true =>
    have hs1 : git_checkpoint s₀ GitCheckpoint.Save
        = { s₀ with commits := ⟨CHECKPOINT_SAVE, s₀.worktree⟩ :: s₀.commits } := by
      have := git_checkpoint_dirty hd GitCheckpoint.Save
      simpa [commitMsg] using this
    set s₂ : GitState α :=
      { initialCommit := s₀.initialCommit
        commits := ⟨CHECKPOINT_SAVE, s₀.worktree⟩ :: s₀.commits
        worktree := f s₀.worktree } with hs₂
    have hwith2 : with_git_checkpoint s₀ GitCheckpoint.RevertLater f
        = git_checkpoint s₂ GitCheckpoint.RevertLater := by
      rw [hwith, hs1]
    by_cases hfw : f s₀.worktree = s₀.worktree
    · have hclean : s₂.isDirty = false := by
        simp [GitState.isDirty, GitState.headCommit, hs₂, hfw]
      rw [hwith2, git_checkpoint_clean hclean]
      rw [revert_stop (show ¬ s₂.headCommit.msg = CHECKPOINT_REVERT from save_ne_revert)]
      exact ⟨s₂, rfl, hfw⟩
    · have hdirty : s₂.isDirty = true := by
        simp [GitState.isDirty, GitState.headCommit, hs₂]
        exact hfw
      rw [hwith2, git_checkpoint_dirty hdirty]
      rw [revert_pop (show (⟨commitMsg GitCheckpoint.RevertLater, s₂.worktree⟩
        : GCommit α).msg = CHECKPOINT_REVERT from rfl)]
      rw [revert_stop (show ¬ ((⟨s₂.initialCommit, s₂.commits,
        ((s₂.commits.headD s₂.initialCommit).tree)⟩ : GitState α)).headCommit.msg
        = CHECKPOINT_REVERT from save_ne_revert)]
      exact ⟨_, rfl, rfl⟩
  | false =>
    have hhead : s₀.headCommit.msg ≠ CHECKPOINT_REVERT := by
      rcases h with h1 | h1
      · exact h1
      · rw [hd] at h1; cases h1
    have hs1 : git_checkpoint s₀ GitCheckpoint.Save = s₀ :=
      git_checkpoint_clean hd GitCheckpoint.Save
    have htree : s₀.worktree = s₀.headCommit.tree := by
      have h2 := hd
      simp only [GitState.isDirty, Bool.not_eq_true', decide_eq_false_iff_not,
        Decidable.not_not] at h2
      exact h2
    set s₂ : GitState α := { s₀ with worktree := f s₀.worktree } with hs₂
    have hwith2 : with_git_checkpoint s₀ GitCheckpoint.RevertLater f
        = git_checkpoint s₂ GitCheckpoint.RevertLater := by
      rw [hwith, hs1]
    by_cases hfw : f s₀.worktree = s₀.worktree
    · have hclean : s₂.isDirty = false := by
        simp only [GitState.isDirty, GitState.headCommit, hs₂, hfw,
          Bool.not_eq_true', decide_eq_false_iff_not, Decidable.not_not]
        exact htree
      rw [hwith2, git_checkpoint_clean hclean]
      rw [revert_stop (show ¬ s₂.headCommit.msg = CHECKPOINT_REVERT from hhead)]
      exact ⟨s₂, rfl, hfw⟩
    · have hdirty : s₂.isDirty = true := by
        simp only [GitState.isDirty, GitState.headCommit, hs₂, decide_eq_true_eq]
        intro hcon
        exact hfw (htree ▸ hcon)
      rw [hwith2, git_checkpoint_dirty hdirty]
      rw [revert_pop (show (⟨commitMsg GitCheckpoint.RevertLater, s₂.worktree⟩
        : GCommit α).msg = CHECKPOINT_REVERT from rfl)]
      rw [revert_stop (show ¬ ((⟨s₂.initialCommit, s₂.commits,
        ((s₂.commits.headD s₂.initialCommit).tree)⟩ : GitState α)).headCommit.msg
        = CHECKPOINT_REVERT from hhead)]
      exact ⟨_, rfl, htree.symm⟩

/-- Witness for the amended C2 at a dirty single-commit repository. -/
theorem with_revert_restores_witness :
    (gsDirty.headCommit.msg ≠ CHECKPOINT_REVERT ∨ gsDirty.isDirty = true) ∧
    ((∃ s', git_checkpoint_revert
          (with_git_checkpoint gsDirty GitCheckpoint.RevertLater (fun t => t + 1))
        = Except.ok s' ∧ s'.worktree = gsDirty.worktree) ∧
      (∀ s : GitState Nat, s.initialCommit.msg ≠ CHECKPOINT_REVERT →
        git_checkpoint_revert s = Except.ok (unwound s))) :=
  ⟨by decide,
    with_revert_restores gsDirty (fun t => t + 1) (by decide)⟩

/-- C7 (counterexample to the claim as stated): on an already-clean tree,
`with_checkpoint(RevertLater, id)` creates no commit at all — in
particular no Save-tagged commit capturing the pre-action state. -/
theorem no_save_commit_when_clean :
    with_git_checkpoint gsClean GitCheckpoint.RevertLater (fun t => t) = gsClean ∧
    gsClean.commits = [] :=
  ⟨rfl, rfl⟩

/-- C7 (amended): for every op other than Save, `with_checkpoint(op,
action)` invokes the Save checkpoint before running the action; that
checkpoint commits the pre-action state when the working tree is dirty,
and makes no commit when the tree is clean (the head commit then already
equals the pre-action state). -/
theorem checkpoint_before_action {α : Type} [DecidableEq α] (s : GitState α)
    (op : GitCheckpoint) (f : α → α) (hop : op ≠ GitCheckpoint.Save) :
    with_git_checkpoint s op f
      = git_checkpoint
          { git_checkpoint s GitCheckpoint.Save with
            worktree := f (git_checkpoint s GitCheckpoint.Save).worktree } op ∧
    (s.isDirty = true →
      (git_checkpoint s GitCheckpoint.Save).commits
        = ⟨CHECKPOINT_SAVE, s.worktree⟩ :: s.commits) ∧
    (s.isDirty = false → git_checkpoint s GitCheckpoint.Save = s) := by
  refine ⟨?_, ?_, ?_⟩
  · simp only [with_git_checkpoint, if_neg hop]
  · intro h
    rw [git_checkpoint_dirty h]
    rfl
  · intro h
    exact git_checkpoint_clean h _

/-- Witness for the amended C7 at a dirty repository with
`op = RevertLater`. -/
theorem checkpoint_before_action_witness :
    (GitCheckpoint.RevertLater ≠ GitCheckpoint.Save) ∧
    (with_git_checkpoint gsDirty GitCheckpoint.RevertLater (fun t => t + 1)
        = git_checkpoint
            { git_checkpoint gsDirty GitCheckpoint.Save with
              worktree := (git_checkpoint gsDirty GitCheckpoint.Save).worktree + 1 }
            GitCheckpoint.RevertLater ∧
      (gsDirty.isDirty = true →
        (git_checkpoint gsDirty GitCheckpoint.Save).commits
          = ⟨CHECKPOINT_SAVE, gsDirty.worktree⟩ :: gsDirty.commits) ∧
      (gsDirty.isDirty = false →
        git_checkpoint gsDirty GitCheckpoint.Save = gsDirty)) :=
  ⟨by decide,
    checkpoint_before_action gsDirty GitCheckpoint.RevertLater (fun t => t + 1)
      (by decide)⟩

/-! ## Claim C9: the Processed Set -/

theorem insertStr_mem {l : List String} {k x : String} (h : x ∈ l) :
    x ∈ insertStr l k := by
  unfold insertStr
  split
  · exact h
  · exact List.mem_append.mpr (Or.inl h)

theorem insertStr_self (l : List String) (k : String) : k ∈ insertStr l k := by
  unfold insertStr
  split
  · next hany =>
    obtain ⟨x, hx, hxe⟩ := List.any_eq_true.mp hany
    have : x = k := of_decide_eq_true hxe
    exact this ▸ hx
  · exact List.mem_append.mpr (Or.inr (List.mem_singleton.mpr rfl))

theorem syncLoop_processed (ext : Ext) (sel : String) :
    ∀ (po : List String) (st : PState),
      (syncLoop ext sel po st).1.processed = st.processed := by
  intro po
  induction po with
  | nil => intro st; rfl
  | cons krate rest ih =>
    intro st
    unfold syncLoop
    by_cases hk : krate = sel
    · rw [if_pos hk]
    · rw [if_neg hk]
      cases hl : lookupDetails st.crates krate with
      | none => rfl
      | some det =>
        dsimp only
        cases hw : ext.writeDepVersion sel krate det.version with
        | error e => rfl
        | ok u => exact ih _

theorem syncDepVersions_processed (ext : Ext) (po : List String) (st : PState)
    (sel : String) : (syncDepVersions ext po st sel).1.processed = st.processed := by
  unfold syncDepVersions
  cases hl : lookupDetails st.crates sel with
  | none => rfl
  | some det =>
    dsimp only
    cases hs : syncLoop ext sel po st with
    | mk st1 e =>
      have := syncLoop_processed ext sel po st
      rw [hs] at this
      simpa using this

theorem propagateLoop_processed (ext : Ext) (krate version : String) :
    ∀ (l : List (String × CrateDetails)) (st : PState),
      (propagateLoop ext krate version l st).1.processed = st.processed := by
  intro l
  induction l with
  | nil => intro st; rfl
  | cons entry rest ih =>
    intro st
    unfold propagateLoop
    cases hw : ext.writeDepVersion entry.1 krate version with
    | error e => rfl
    | ok u =>
      dsimp only
      exact ih _

theorem propagateVersion_processed (ext : Ext) (st : PState) (krate version : String) :
    (propagateVersion ext st krate version).1.processed = st.processed := by
  unfold propagateVersion
  cases hp : propagateLoop ext krate version st.crates st with
  | mk st1 e =>
    have := propagateLoop_processed ext krate version st.crates st
    rw [hp] at this
    simpa using this

theorem processWorkCrate_processed (ext : Ext) (verify : Option (List String))
    (delay : Option Nat) (st : PState) (krate : String) :
    ∀ x ∈ st.processed, x ∈ (processWorkCrate ext verify delay st krate).1.processed := by
  intro x hx
  unfold processWorkCrate
  cases lookupDetails st.crates krate with
  | none => exact hx
  | some details =>
    dsimp only
    cases ext.crateVersions krate with
    | error e => exact hx
    | ok prev_versions =>
      dsimp only
      cases ext.needsPublishing krate prev_versions with
      | error e => exact hx
      | ok b =>
        cases b with
        | true =>
          dsimp only
          cases ext.maybeBumpVersion krate prev_versions with
          | error e => exact hx
          | ok last_version =>
            dsimp only
            cases ext.publishCrate krate verify delay with
            | error e => exact hx
            | ok u =>
              dsimp only
              cases hp : propagateVersion ext
                  { crates := updateVersion st.crates krate last_version
                    processed := st.processed
                    events := (st.events ++
                      [Event.bumped krate last_version, Event.checkpoint])
                      ++ [Event.published krate] }
                  krate last_version with
              | mk st3 e =>
                have hpp := propagateVersion_processed ext
                  { crates := updateVersion st.crates krate last_version
                    processed := st.processed
                    events := (st.events ++
                      [Event.bumped krate last_version, Event.checkpoint])
                      ++ [Event.published krate] }
                  krate last_version
                rw [hp] at hpp
                simp only at hpp
                cases e with
                | some err =>
                  dsimp only
                  rw [hpp]
                  exact hx
                | none =>
                  dsimp only
                  rw [hpp]
                  exact insertStr_mem hx
        | false =>
          dsimp only
          cases hp : propagateVersion ext st krate details.version with
          | mk st3 e =>
            have hpp := propagateVersion_processed ext st krate details.version
            rw [hp] at hpp
            simp only at hpp
            cases e with
            | some err =>
              dsimp only
              rw [hpp]
              exact hx
            | none =>
              dsimp only
              rw [hpp]
              exact insertStr_mem hx

theorem processWork_processed (ext : Ext) (verify : Option (List String))
    (delay : Option Nat) :
    ∀ (l : List String) (st : PState) (x : String), x ∈ st.processed →
      x ∈ (processWork ext verify delay l st).1.processed := by
  intro l
  induction l with
  | nil => intro st x hx; exact hx
  | cons krate rest ih =>
    intro st x hx
    unfold processWork
    cases hw : processWorkCrate ext verify delay st krate with
    | mk st1 e =>
      have h1 := processWorkCrate_processed ext verify delay st krate x hx
      rw [hw] at h1
      cases e with
      | some err => exact h1
      | none => exact ih st1 x h1

theorem processCrate_mono (ext : Ext) (po : List String) (verify : Option (List String))
    (delay : Option Nat) (st : PState) (sel : String) :
    ∀ x ∈ st.processed, x ∈ (processCrate ext po verify delay st sel).1.processed := by
  intro x hx
  unfold processCrate
  by_cases hmem : st.processed.any (fun p => p = sel) = true
  · rw [if_pos hmem]
    exact hx
  · rw [if_neg hmem]
    cases hsync : syncDepVersions ext po st sel with
    | mk st1 e1 =>
      have hsp : st1.processed = st.processed := by
        have := syncDepVersions_processed ext po st sel
        rw [hsync] at this
        simpa using this
      cases e1 with
      | some e => simpa [hsp] using hx
      | none =>
        dsimp only
        cases hwnp : ext.whatNeedsPublishing sel po with
        | error e => simpa [hsp] using hx
        | ok l =>
          dsimp only
          by_cases hemp : l.isEmpty = true
          · rw [if_pos hemp]
            simpa [hsp] using hx
          · rw [if_neg hemp]
            have hx1 : x ∈ st1.processed := hsp ▸ hx
            cases hwork : processWork ext verify delay
                (l.filter (fun krate => !(st1.processed.any (fun p => p = krate)))) st1 with
            | mk st2 e2 =>
              have h2 := processWork_processed ext verify delay
                (l.filter (fun krate => !(st1.processed.any (fun p => p = krate)))) st1 x hx1
              rw [hwork] at h2
              cases e2 with
              | some err => exact h2
              | none =>
                dsimp only
                exact insertStr_mem h2

theorem runPipeline_mono (ext : Ext) (po : List String) (verify : Option (List String))
    (delay : Option Nat) :
    ∀ (sels : List String) (st : PState) (x : String), x ∈ st.processed →
      x ∈ (runPipeline ext po verify delay sels st).1.processed := by
  intro sels
  induction sels with
  | nil => intro st x hx; exact hx
  | cons sel rest ih =>
    intro st x hx
    unfold runPipeline
    cases hc : processCrate ext po verify delay st sel with
    | mk st1 e =>
      have h1 := processCrate_mono ext po verify delay st sel x hx
      rw [hc] at h1
      cases e with
      | some err => exact h1
      | none => exact ih st1 x h1

/-- C9 (counterexample to the claim as stated): when the external work-set
computation returns an empty list, the iteration completes without error
(`continue`), yet the selected crate is not added to the Processed Set. -/
theorem processed_not_marked_on_empty :
    (processCrate extTrivial ["a", "b", "c"] none none ⟨wsABC, [], []⟩ "a").2 = none ∧
    ¬ "a" ∈ (processCrate extTrivial ["a", "b", "c"] none none
      ⟨wsABC, [], []⟩ "a").1.processed :=
  ⟨rfl, by decide⟩

/-- C9 (amended): an error-free iteration of the Publish Pipeline only
grows the Processed Set, and marks the selected crate processed whenever
it was already processed or its computed work set is non-empty (an empty
work set skips the crate without marking it); the Processed Set also grows
monotonically across a whole run. -/
theorem processed_set_spec (ext : Ext) (po : List String)
    (verify : Option (List String)) (delay : Option Nat)
    (st : PState) (sel : String) (st' : PState)
    (hok : processCrate ext po verify delay st sel = (st', none)) :
    (∀ x ∈ st.processed, x ∈ st'.processed) ∧
    ((sel ∈ st.processed ∨
        (∃ l, ext.whatNeedsPublishing sel po = Except.ok l ∧ l ≠ [])) →
      sel ∈ st'.processed) ∧
    (∀ (sels : List String) (st0 : PState) (x : String), x ∈ st0.processed →
      x ∈ (runPipeline ext po verify delay sels st0).1.processed) := by
  have hmono := processCrate_mono ext po verify delay st sel
  rw [hok] at hmono
  refine ⟨hmono, ?_, runPipeline_mono ext po verify delay⟩
  intro hsel
  unfold processCrate at hok
  by_cases hmem : st.processed.any (fun p => p = sel) = true
  · rw [if_pos hmem] at hok
    have hst : st = st' := by
      have := congrArg Prod.fst hok
      simpa using this
    obtain ⟨p, hp, hpe⟩ := List.any_eq_true.mp hmem
    have : p = sel := of_decide_eq_true hpe
    exact hst ▸ (this ▸ hp)
  · rw [if_neg hmem] at hok
    have hnotmem : sel ∉ st.processed := by
      intro hs
      exact hmem (List.any_eq_true.mpr ⟨sel, hs, by simp⟩)
    cases hsync : syncDepVersions ext po st sel with
    | mk st1 e1 =>
      rw [hsync] at hok
      cases e1 with
      | some e => simp at hok
      | none =>
        dsimp only at hok
        cases hwnp : ext.whatNeedsPublishing sel po with
        | error e => rw [hwnp] at hok; simp at hok
        | ok l =>
          rw [hwnp] at hok
          dsimp only at hok
          have hlne : l ≠ [] := by
            rcases hsel with hs | ⟨l2, hl2, hl2ne⟩
            · exact absurd hs hnotmem
            · rw [hwnp] at hl2
              exact (Except.ok.inj hl2) ▸ hl2ne
          have hemp : l.isEmpty = false := List.isEmpty_eq_false.mpr hlne
          rw [hemp] at hok
          simp only [Bool.false_eq_true, if_false] at hok
          cases hwork : processWork ext verify delay
              (l.filter (fun krate => !(st1.processed.any (fun p => p = krate)))) st1 with
          | mk st2 e2 =>
            rw [hwork] at hok
            cases e2 with
            | some err => simp at hok
            | none =>
              dsimp only at hok
              have hst : ({ crates := st2.crates,
                            processed := insertStr st2.processed sel,
                            events := st2.events } : PState) = st' := by
                have := congrArg Prod.fst hok
                simpa using this
              rw [← hst]
              exact insertStr_self st2.processed sel

/-- Witness for the amended C9: an iteration with a non-empty work set
marks the crate processed. -/
theorem processed_set_spec_witness :
    (processCrate extOneCrate ["a"] none none ⟨wsOneCrate, [], []⟩ "a"
        = (pstateAfterA, none)) ∧
    ((∀ x ∈ (⟨wsOneCrate, [], []⟩ : PState).processed, x ∈ pstateAfterA.processed) ∧
      (("a" ∈ (⟨wsOneCrate, [], []⟩ : PState).processed ∨
          (∃ l, extOneCrate.whatNeedsPublishing "a" ["a"] = Except.ok l ∧ l ≠ [])) →
        "a" ∈ pstateAfterA.processed) ∧
      (∀ (sels : List String) (st0 : PState) (x : String), x ∈ st0.processed →
        x ∈ (runPipeline extOneCrate ["a"] none none sels st0).1.processed)) :=
  ⟨by rfl,
    processed_set_spec extOneCrate ["a"] none none ⟨wsOneCrate, [], []⟩ "a"
      pstateAfterA (by rfl)⟩

end Subpub
